import Mathlib

/-!
# Streaming statistics accumulators (`istatistics.hpp`)

A shallow embedding of the four accumulators `Min`, `Max`, `Mean` and `Std`
of `istatistics.hpp`, together with the arithmetic they run on.

The C++ type `double` is modelled by `Dbl`, the value set of IEEE 754
binary64 (all NaNs identified).  Every finite double is an integer multiple
of `2^-1074`; the model stores that integer (the *magnitude*, in units of
`2^-1074`) through the exponent and fraction fields and implements
`+ - * / sqrt` by exact integer arithmetic followed by one rounding to
nearest, ties to even (the default rounding mode).  Comparisons are those of
IEEE 754: every comparison with a NaN is false and `+0 == -0`.

The `int` counter of `Mean` is a 32-bit two's complement integer whose
increment wraps.  The `std::vector<double>` of `Std` is a list, its `size()`
the length of the list, converted to `double` by one rounding.

Each class is a structure holding its data members; a constructor is the
definition `ctor`, a non-`const` method maps a state to the next state and a
`const` method maps a state to the value it returns.
-/

set_option exponentiation.threshold 5000

namespace Statistics

/-! ## The `double` type -/

/-- A binary64 value: NaN, a signed infinity, a signed subnormal (or zero)
`± m * 2^-1074`, or a signed normal `± (2^52 + f) * 2^e * 2^-1074`
(biased exponent field `e + 1`). -/
inductive Dbl
  | nan
  | inf (neg : Bool)
  | sub (neg : Bool) (m : Fin (2 ^ 52))
  | norm (neg : Bool) (e : Fin 2046) (f : Fin (2 ^ 52))
  deriving DecidableEq, Repr

namespace Dbl

/-- Magnitude of a finite double in units of `2^-1074` (0 for NaN and infinities). -/
def mag : Dbl → Nat
  | .sub _ m => m.val
  | .norm _ e f => (2 ^ 52 + f.val) * 2 ^ e.val
  | _ => 0

/-- Sign bit. -/
def isNeg : Dbl → Bool
  | .nan => false
  | .inf s => s
  | .sub s _ => s
  | .norm s _ _ => s

def isNaN : Dbl → Bool
  | .nan => true
  | _ => false

def isFinite : Dbl → Bool
  | .sub _ _ => true
  | .norm _ _ _ => true
  | _ => false

/-- Signed value of a finite double in units of `2^-1074`. -/
def toInt (d : Dbl) : Int :=
  if d.isNeg then -(d.mag : Int) else (d.mag : Int)

/-- Order key of a non-NaN double: the signed value in units of `2^-1074`,
with the infinities placed beyond every finite value (all finite magnitudes
are below `2^2099`). -/
def key : Dbl → Int
  | .nan => 0
  | .inf false => ((2 ^ 2100 : Nat) : Int)
  | .inf true => -((2 ^ 2100 : Nat) : Int)
  | d => d.toInt

end Dbl

open Dbl

/-- Comparison `a < b` of C++ doubles: false when either operand is NaN. -/
def flt (a b : Dbl) : Bool := !a.isNaN && !b.isNaN && decide (a.key < b.key)

/-- Comparison `a > b`. -/
def fgt (a b : Dbl) : Bool := flt b a

/-- Comparison `a <= b`: false when either operand is NaN. -/
def fle (a b : Dbl) : Bool := !a.isNaN && !b.isNaN && decide (a.key ≤ b.key)

/-- Comparison `a >= b`. -/
def fge (a b : Dbl) : Bool := fle b a

/-- Comparison `a == b`: false when either operand is NaN, `+0 == -0`. -/
def feq (a b : Dbl) : Bool := !a.isNaN && !b.isNaN && decide (a.key = b.key)

/-! ## Rounding -/

/-- Binary search for the position of the leading bit. -/
def log2Aux : Nat → Nat → Nat → Nat
  | 0, _, acc => acc
  | k + 1, n, acc =>
    if 2 ^ (2 ^ k) ≤ n then log2Aux k (n / 2 ^ (2 ^ k)) (acc + 2 ^ k) else log2Aux k n acc

/-- Floor of the binary logarithm, for `1 ≤ n < 2^4096`. -/
def ilog2 (n : Nat) : Nat := log2Aux 12 n 0

/-- Digit-by-digit integer square root: bits `i-1 .. 0` are decided in turn. -/
def sqrtAux : Nat → Nat → Nat → Nat
  | 0, _, r => r
  | i + 1, n, r =>
    if (r + 2 ^ i) * (r + 2 ^ i) ≤ n then sqrtAux i n (r + 2 ^ i) else sqrtAux i n r

/-- Floor of the square root, for `n < 2^4096`. -/
def isqrt (n : Nat) : Nat := sqrtAux (ilog2 n / 2 + 1) n 0

/-- Nearest integer to `num / den`, ties to the even one. -/
def rne (num den : Nat) : Nat :=
  let q := num / den
  let r := num % den
  if 2 * r < den then q
  else if den < 2 * r then q + 1
  else if q % 2 = 0 then q else q + 1

/-- The double with sign `neg` and value `k * 2^e` units, for a rounded
significand `k ≤ 2^53` (`k < 2^52` only with `e = 0`); exponents past the
largest one give infinity. -/
def pack (neg : Bool) (k e : Nat) : Dbl :=
  if h : k < 2 ^ 52 then sub neg ⟨k, h⟩
  else if h1 : k < 2 ^ 53 then
    if he : e < 2046 then norm neg ⟨e, he⟩ ⟨k - 2 ^ 52, by omega⟩ else inf neg
  else
    if he : e + 1 < 2046 then norm neg ⟨e + 1, he⟩ ⟨0, by decide⟩ else inf neg

/-- Round the non-negative rational `num / den` (in units of `2^-1074`,
`den > 0`) to the nearest double of sign `neg`, ties to even.  The spacing of
doubles around a value with integer part `q` is `2^e` units with `e = 0` below
`2^53` and `e = ⌊log2 q⌋ - 52` above. -/
def round (neg : Bool) (num den : Nat) : Dbl :=
  let q := num / den
  if 2 ^ 2100 ≤ q then inf neg
  else
    let e := if q < 2 ^ 53 then 0 else ilog2 q - 52
    pack neg (rne num (den * 2 ^ e)) e

/-! ## Arithmetic -/

/-- Signed zero. -/
def zero (neg : Bool) : Dbl := sub neg ⟨0, by decide⟩

/-- Unary minus. -/
def fneg : Dbl → Dbl
  | .nan => nan
  | .inf s => inf (!s)
  | .sub s m => sub (!s) m
  | .norm s e f => norm (!s) e f

/-- Addition `a + b`. -/
def fadd : Dbl → Dbl → Dbl
  | .nan, _ => nan
  | _, .nan => nan
  | .inf s, .inf t => if s = t then inf s else nan
  | .inf s, _ => inf s
  | _, .inf t => inf t
  | a, b =>
    let z := a.toInt + b.toInt
    if z = 0 then zero (a.isNeg && b.isNeg)
    else round (decide (z < 0)) z.natAbs 1

/-- Subtraction `a - b`. -/
def fsub (a b : Dbl) : Dbl := fadd a (fneg b)

/-- Multiplication `a * b`. -/
def fmul : Dbl → Dbl → Dbl
  | .nan, _ => nan
  | _, .nan => nan
  | .inf s, .inf t => inf (xor s t)
  | .inf s, b => if b.mag = 0 then nan else inf (xor s b.isNeg)
  | a, .inf t => if a.mag = 0 then nan else inf (xor a.isNeg t)
  | a, b => round (xor a.isNeg b.isNeg) (a.mag * b.mag) (2 ^ 1074)

/-- Division `a / b`. -/
def fdiv : Dbl → Dbl → Dbl
  | .nan, _ => nan
  | _, .nan => nan
  | .inf _, .inf _ => nan
  | .inf s, b => inf (xor s b.isNeg)
  | a, .inf t => zero (xor a.isNeg t)
  | a, b =>
    if b.mag = 0 then
      if a.mag = 0 then nan else inf (xor a.isNeg b.isNeg)
    else round (xor a.isNeg b.isNeg) (a.mag * 2 ^ 1074) b.mag

/-- Square root `sqrt(a)`.  For positive `a` the exact root lies in
`[s, s + 1)` units with `s ≥ 2^537`, where no double and no midpoint of two
doubles lies strictly between consecutive integers, so rounding `s` (exact
root) or `s + 1/2` (inexact root) gives the correctly rounded result. -/
def fsqrt : Dbl → Dbl
  | .nan => nan
  | .inf s => if s then nan else inf false
  | a =>
    if a.mag = 0 then a
    else if a.isNeg then nan
    else
      let n := a.mag * 2 ^ 1074
      let s := isqrt n
      round false (2 * s + (if s * s = n then 0 else 1)) 2

/-- Conversion of an integer (`int`) to `double`. -/
def ofInt (i : Int) : Dbl := round (decide (i < 0)) (i.natAbs * 2 ^ 1074) 1

/-- Conversion of an unsigned integer (`std::size_t`) to `double`. -/
def ofNat (n : Nat) : Dbl := round false (n * 2 ^ 1074) 1

/-- The double written as the decimal literal `num / den`. -/
def ofRat (neg : Bool) (num den : Nat) : Dbl := round neg (num * 2 ^ 1074) den

/-- Library constant `std::numeric_limits<double>::max()`:
`(2^53 - 1) * 2^971`, the largest finite double. -/
def DBL_MAX : Dbl := norm false ⟨2045, by decide⟩ ⟨2 ^ 52 - 1, by decide⟩

/-- Library constant `std::numeric_limits<double>::min()`:
`2^-1022`, the smallest positive normalised double. -/
def DBL_MIN : Dbl := norm false ⟨0, by decide⟩ ⟨0, by decide⟩

/-- Value `int` arithmetic wraps to: 32-bit two's complement. -/
def wrapInt32 (i : Int) : Int := (i + 2 ^ 31) % 2 ^ 32 - 2 ^ 31

/-! ## The accumulators -/

/-- State of `class Min`. -/
structure Min where
  m_min : Dbl
  deriving DecidableEq, Repr

/-- Constructor `Min()`. -/
def Min.ctor : Min := ⟨DBL_MAX⟩

/-- Method `Min::update`. -/
def Min.update (self : Min) (next : Dbl) : Min :=
  if flt next self.m_min then ⟨next⟩ else self

/-- Method `Min::eval`. -/
def Min.eval (self : Min) : Dbl := self.m_min

/-- Method `Min::name`. -/
def Min.name (_self : Min) : String := "min value"

/-- State of `class Max`. -/
structure Max where
  m_max : Dbl
  deriving DecidableEq, Repr

/-- Constructor `Max()`. -/
def Max.ctor : Max := ⟨DBL_MIN⟩

/-- Method `Max::update`. -/
def Max.update (self : Max) (next : Dbl) : Max :=
  if fgt next self.m_max then ⟨next⟩ else self

/-- Method `Max::eval`. -/
def Max.eval (self : Max) : Dbl := self.m_max

/-- Method `Max::name`. -/
def Max.name (_self : Max) : String := "max value"

/-- State of `class Mean`. -/
structure Mean where
  m_sum : Dbl
  m_cnt : Int
  deriving DecidableEq, Repr

/-- Constructor `Mean()`: `m_sum(0), m_cnt(0)`. -/
def Mean.ctor : Mean := ⟨ofInt 0, 0⟩

/-- Method `Mean::update`. -/
def Mean.update (self : Mean) (next : Dbl) : Mean :=
  ⟨fadd self.m_sum next, wrapInt32 (self.m_cnt + 1)⟩

/-- Method `Mean::eval`: the `int` count is converted to `double`. -/
def Mean.eval (self : Mean) : Dbl := fdiv self.m_sum (ofInt self.m_cnt)

/-- Method `Mean::name`. -/
def Mean.name (_self : Mean) : String := "average value"

/-- State of `class Std`. -/
structure Std where
  m_vector : List Dbl
  deriving DecidableEq, Repr

/-- Constructor `Std()`. -/
def Std.ctor : Std := ⟨[]⟩

/-- Method `Std::update`: `push_back`. -/
def Std.update (self : Std) (next : Dbl) : Std := ⟨self.m_vector ++ [next]⟩

/-- Method `Std::eval`: `std::accumulate` from `0.0`, division by the
`size_t` size converted to `double`, the loop over squared deviations, `sqrt`. -/
def Std.eval (self : Std) : Dbl :=
  let mean := fdiv (self.m_vector.foldl fadd (zero false)) (ofNat self.m_vector.length)
  let accum := self.m_vector.foldl
    (fun accum d => fadd accum (fmul (fsub d mean) (fsub d mean))) (zero false)
  fsqrt (fdiv accum (ofNat self.m_vector.length))

/-- Method `Std::name`. -/
def Std.name (_self : Std) : String := "standard deviation"

/-- A fresh `Min` after `update` on each element of `S` in order. -/
def Min.consume (S : List Dbl) : Min := S.foldl Min.update Min.ctor

/-- A fresh `Max` after `update` on each element of `S` in order. -/
def Max.consume (S : List Dbl) : Max := S.foldl Max.update Max.ctor

/-- A fresh `Mean` after `update` on each element of `S` in order. -/
def Mean.consume (S : List Dbl) : Mean := S.foldl Mean.update Mean.ctor

/-- A fresh `Std` after `update` on each element of `S` in order. -/
def Std.consume (S : List Dbl) : Std := S.foldl Std.update Std.ctor

/-! ## The interface `IStatistics` -/

/-- An object behind the abstract interface `IStatistics`: one of the four
implementing classes. -/
inductive IStatistics
  | min (s : Min)
  | max (s : Max)
  | mean (s : Mean)
  | std (s : Std)
  deriving DecidableEq, Repr

/-- Virtual method `update`. -/
def IStatistics.update : IStatistics → Dbl → IStatistics
  | .min s, next => .min (s.update next)
  | .max s, next => .max (s.update next)
  | .mean s, next => .mean (s.update next)
  | .std s, next => .std (s.update next)

/-- Virtual method `eval`, a `const` method: it yields a value and no new state. -/
def IStatistics.eval : IStatistics → Dbl
  | .min s => s.eval
  | .max s => s.eval
  | .mean s => s.eval
  | .std s => s.eval

/-- Virtual method `name`. -/
def IStatistics.name : IStatistics → String
  | .min s => s.name
  | .max s => s.name
  | .mean s => s.name
  | .std s => s.name

/-- A call made by a client through the interface. -/
inductive Call
  | update (next : Dbl)
  | eval
  deriving DecidableEq, Repr

/-- One call on an object: the object afterwards and the value returned, if any. -/
def IStatistics.step (o : IStatistics) : Call → IStatistics × Option Dbl
  | .update next => (o.update next, none)
  | .eval => (o, some o.eval)

/-- A sequence of calls on an object: the object afterwards and the values
returned by the `eval` calls, in order. -/
def IStatistics.run : IStatistics → List Call → IStatistics × List Dbl
  | o, [] => (o, [])
  | o, c :: cs =>
    let r := o.step c
    let rest := IStatistics.run r.1 cs
    (rest.1, r.2.toList ++ rest.2)

/-- An object after `update` on each element of `S` in order. -/
def IStatistics.consume (o : IStatistics) (S : List Dbl) : IStatistics :=
  S.foldl IStatistics.update o

/-! ## Reference notions the accumulators are compared with -/

/-- The value `r` is a minimum element of `S`: it occurs in `S` and `r <= x`
for every `x` in `S`. -/
def isMinOf (r : Dbl) (S : List Dbl) : Prop := r ∈ S ∧ ∀ x ∈ S, fle r x = true

/-- The value `r` is a maximum element of `S`: it occurs in `S` and `x <= r`
for every `x` in `S`. -/
def isMaxOf (r : Dbl) (S : List Dbl) : Prop := r ∈ S ∧ ∀ x ∈ S, fle x r = true

/-- Reference `sum(S)`: the elements added left to right, starting from `0.0`. -/
def specSum (S : List Dbl) : Dbl := S.foldl fadd (zero false)

/-- Reference `mean(S) = sum(S) / len(S)`. -/
def specMean (S : List Dbl) : Dbl := fdiv (specSum S) (ofNat S.length)

/-- Squared deviation `(x - mean)^2`. -/
def sqDev (mean x : Dbl) : Dbl := fmul (fsub x mean) (fsub x mean)

/-- Reference population standard deviation
`sqrt( (sum over x in S of (x - mean(S))^2) / len(S) )`. -/
def specStd (S : List Dbl) : Dbl :=
  fsqrt (fdiv (specSum (S.map (sqDev (specMean S)))) (ofNat S.length))

/-- The addition `a + b` of two finite doubles is exact: the result is finite
and its value is the real sum. -/
def addExact (a b : Dbl) : Bool :=
  a.isFinite && b.isFinite && (fadd a b).isFinite && decide ((fadd a b).toInt = a.toInt + b.toInt)

/-- Every addition made while adding the elements of `S` to `acc`, left to
right, is exact. -/
def sumExact : Dbl → List Dbl → Bool
  | _, [] => true
  | acc, x :: xs => addExact acc x && sumExact (fadd acc x) xs

/-! ## Auxiliary notions used in the proofs -/

instance (r : Dbl) (S : List Dbl) : Decidable (isMinOf r S) := by
  unfold isMinOf; infer_instance

instance (r : Dbl) (S : List Dbl) : Decidable (isMaxOf r S) := by
  unfold isMaxOf; infer_instance

/-- Order key of the running minimum after one more observation. -/
def minKey (k : Int) (x : Dbl) : Int := if x.isNaN then k else min k x.key

/-- Order key of the running maximum after one more observation. -/
def maxKey (k : Int) (x : Dbl) : Int := if x.isNaN then k else max k x.key

/-- A double that is not NaN and has its sign bit clear: `+0`, a positive
finite value or `+infinity`. -/
def NonNeg (d : Dbl) : Prop := d.isNaN = false ∧ d.isNeg = false

/-- The double is `+0` or `-0`. -/
def Dbl.isZero (d : Dbl) : Bool := d.isFinite && decide (d.mag = 0)

/-- Neither a squared deviation nor their mean underflows to zero in
`Std.eval()` on `S`: a squared deviation is zero only if the deviation is, and
the sum of the squared deviations divided by the size is zero only if the sum
is. -/
def stdNoUnderflow (S : List Dbl) : Prop :=
  (∀ y ∈ S, (sqDev (specMean S) y).isZero = true → (fsub y (specMean S)).isZero = true) ∧
  ((fdiv (specSum (S.map (sqDev (specMean S)))) (ofNat S.length)).isZero = true →
    (specSum (S.map (sqDev (specMean S)))).isZero = true)

instance (S : List Dbl) : Decidable (stdNoUnderflow S) := by
  unfold stdNoUnderflow; infer_instance

/-! ## Basic facts about the order on doubles -/

theorem flt_iff (a b : Dbl) :
    flt a b = true ↔ a.isNaN = false ∧ b.isNaN = false ∧ a.key < b.key := by
  simp [flt, and_assoc]

theorem fle_iff (a b : Dbl) :
    fle a b = true ↔ a.isNaN = false ∧ b.isNaN = false ∧ a.key ≤ b.key := by
  simp [fle, and_assoc]

theorem feq_iff (a b : Dbl) :
    feq a b = true ↔ a.isNaN = false ∧ b.isNaN = false ∧ a.key = b.key := by
  simp [feq, and_assoc]

theorem mag_norm_ge (s : Bool) (e : Fin 2046) (f : Fin (2 ^ 52)) :
    2 ^ 52 ≤ (norm s e f).mag := by
  have h1 : 1 ≤ 2 ^ e.val := Nat.one_le_two_pow
  calc 2 ^ 52 = 2 ^ 52 * 1 := by norm_num
    _ ≤ (2 ^ 52 + f.val) * 2 ^ e.val := Nat.mul_le_mul (Nat.le_add_right _ _) h1

theorem norm_mag_inj_aux (e e' f f' : Nat) (hf : f < 2 ^ 52) (hlt : e < e')
    (h : (2 ^ 52 + f) * 2 ^ e = (2 ^ 52 + f') * 2 ^ e') : False := by
  obtain ⟨d, rfl⟩ : ∃ d, e' = e + (d + 1) := ⟨e' - e - 1, by omega⟩
  have h2 : (2 ^ 52 + f') * 2 ^ (e + (d + 1)) = ((2 ^ 52 + f') * 2 ^ (d + 1)) * 2 ^ e := by
    rw [pow_add]; ring
  rw [h2] at h
  have h3 := Nat.eq_of_mul_eq_mul_right (Nat.two_pow_pos e) h
  have h4 : 2 ≤ 2 ^ (d + 1) := by
    calc 2 = 2 ^ 1 := by norm_num
      _ ≤ 2 ^ (d + 1) := Nat.pow_le_pow_right (by norm_num) (by omega)
  have h5 : 2 ^ 52 * 2 ≤ (2 ^ 52 + f') * 2 ^ (d + 1) :=
    Nat.mul_le_mul (Nat.le_add_right _ _) h4
  omega

/-- Two finite doubles of equal magnitude and equal sign are the same double. -/
theorem mag_inj {a b : Dbl} (ha : a.isFinite = true) (hb : b.isFinite = true)
    (hs : a.isNeg = b.isNeg) (hm : a.mag = b.mag) : a = b := by
  cases a with
  | nan => simp [isFinite] at ha
  | inf s => simp [isFinite] at ha
  | sub s m =>
    cases b with
    | nan => simp [isFinite] at hb
    | inf t => simp [isFinite] at hb
    | sub t m' =>
      simp only [isNeg] at hs
      simp only [mag] at hm
      rw [hs, Fin.ext hm]
    | norm t e' f' =>
      have := mag_norm_ge t e' f'
      rw [← hm] at this
      simp only [mag] at this
      have := m.isLt
      omega
  | norm s e f =>
    cases b with
    | nan => simp [isFinite] at hb
    | inf t => simp [isFinite] at hb
    | sub t m' =>
      have := mag_norm_ge s e f
      rw [hm] at this
      simp only [mag] at this
      have := m'.isLt
      omega
    | norm t e' f' =>
      simp only [isNeg] at hs
      simp only [mag] at hm
      have hee : e.val = e'.val := by
        rcases Nat.lt_trichotomy e.val e'.val with h | h | h
        · exact (norm_mag_inj_aux _ _ _ _ f.isLt h hm).elim
        · exact h
        · exact (norm_mag_inj_aux _ _ _ _ f'.isLt h hm.symm).elim
      rw [hee] at hm
      have hff := Nat.eq_of_mul_eq_mul_right (Nat.two_pow_pos e'.val) hm
      have hff' : f.val = f'.val := by omega
      rw [hs, Fin.ext hee, Fin.ext hff']

/-- Every finite magnitude is at most that of `DBL_MAX`. -/
theorem mag_le_max (d : Dbl) : d.mag ≤ (2 ^ 53 - 1) * 2 ^ 2045 := by
  cases d with
  | nan => simp [mag]
  | inf s => simp [mag]
  | sub s m =>
    simp only [mag]
    have := m.isLt
    have h1 : (1 : Nat) ≤ 2 ^ 2045 := Nat.one_le_two_pow
    calc m.val ≤ (2 ^ 53 - 1) * 1 := by omega
      _ ≤ (2 ^ 53 - 1) * 2 ^ 2045 := Nat.mul_le_mul_left _ h1
  | norm s e f =>
    simp only [mag]
    have := f.isLt
    have := e.isLt
    exact Nat.mul_le_mul (by omega) (Nat.pow_le_pow_right (by norm_num) (by omega))

theorem mag_lt_big (d : Dbl) : (d.mag : Int) < ((2 ^ 2100 : Nat) : Int) := by
  have h := mag_le_max d
  have h2 : (2 ^ 53 - 1) * 2 ^ 2045 < 2 ^ 2100 := by norm_num
  exact_mod_cast lt_of_le_of_lt h h2

theorem key_finite_bounds {d : Dbl} (h : d.isFinite = true) :
    -((2 ^ 2100 : Nat) : Int) < d.key ∧ d.key < ((2 ^ 2100 : Nat) : Int) := by
  have hm := mag_lt_big d
  have h0 : (0 : Int) ≤ d.mag := Int.ofNat_nonneg _
  cases d with
  | nan => simp [isFinite] at h
  | inf s => simp [isFinite] at h
  | sub s m => simp only [key, toInt]; split <;> constructor <;> omega
  | norm s e f => simp only [key, toInt]; split <;> constructor <;> omega

theorem key_of_finite {d : Dbl} (h : d.isFinite = true) : d.key = d.toInt := by
  cases d with
  | nan => simp [isFinite] at h
  | inf s => simp [isFinite] at h
  | sub s m => rfl
  | norm s e f => rfl

theorem key_inf_false : (inf false).key = ((2 ^ 2100 : Nat) : Int) := rfl

theorem key_inf_true : (inf true).key = -((2 ^ 2100 : Nat) : Int) := rfl

/-- Two non-NaN doubles with the same non-zero order key are the same double. -/
theorem key_inj {a b : Dbl} (ha : a.isNaN = false) (hb : b.isNaN = false)
    (hk : a.key = b.key) (h0 : a.key ≠ 0) : a = b := by
  by_cases fa : a.isFinite = true
  · by_cases fb : b.isFinite = true
    · rw [key_of_finite fa] at hk h0
      rw [key_of_finite fb] at hk
      have h1 : (0 : Int) ≤ a.mag := Int.ofNat_nonneg _
      have h2 : (0 : Int) ≤ b.mag := Int.ofNat_nonneg _
      unfold toInt at hk h0
      have hs : a.isNeg = b.isNeg := by
        cases ha' : a.isNeg <;> cases hb' : b.isNeg <;> simp [ha', hb'] at hk h0 ⊢ <;> omega
      refine mag_inj fa fb hs ?_
      rw [hs] at hk
      cases hb' : b.isNeg <;> simp [hb'] at hk <;> omega
    · have := key_finite_bounds fa
      cases b with
      | nan => simp [isNaN] at hb
      | inf t => cases t <;> simp only [key_inf_false, key_inf_true] at hk <;> omega
      | sub t m => simp [isFinite] at fb
      | norm t e f => simp [isFinite] at fb
  · cases a with
    | nan => simp [isNaN] at ha
    | sub s m => simp [isFinite] at fa
    | norm s e f => simp [isFinite] at fa
    | inf s =>
      cases b with
      | nan => simp [isNaN] at hb
      | inf t =>
        cases s <;> cases t <;> simp only [key_inf_false, key_inf_true] at hk <;>
          first | rfl | omega
      | sub t m =>
        have := key_finite_bounds (d := sub t m) rfl
        cases s <;> simp only [key_inf_false, key_inf_true] at hk <;> omega
      | norm t e f =>
        have := key_finite_bounds (d := norm t e f) rfl
        cases s <;> simp only [key_inf_false, key_inf_true] at hk <;> omega

/-! ## The arithmetic on known values -/

set_option maxRecDepth 8000 in
/-- The model reproduces the binary64 results `0.1 + 0.2 = 0x3FD3333333333334`
(which is not `0.3`), `1 / 3 = 0x3FD5555555555555`,
`sqrt(2) = 0x3FF6A09E667F3BCD`, `2^53 + 1 = 2^53` (tie to even),
`DBL_MAX + DBL_MAX = inf`, `DBL_MIN * DBL_MIN = 0`, `inf - inf = NaN` and
`0 / 0 = NaN`. -/
theorem arithmetic_known_values :
    fadd (ofRat false 1 10) (ofRat false 2 10)
      = norm false ⟨0x3FD - 1, by decide⟩ ⟨0x3333333333334, by decide⟩ ∧
    fadd (ofRat false 1 10) (ofRat false 2 10) ≠ ofRat false 3 10 ∧
    fdiv (ofInt 1) (ofInt 3) = norm false ⟨0x3FD - 1, by decide⟩ ⟨0x5555555555555, by decide⟩ ∧
    fsqrt (ofInt 2) = norm false ⟨0x3FF - 1, by decide⟩ ⟨0x6A09E667F3BCD, by decide⟩ ∧
    fadd (ofInt (2 ^ 53)) (ofInt 1) = ofInt (2 ^ 53) ∧
    fadd DBL_MAX DBL_MAX = inf false ∧
    fmul DBL_MIN DBL_MIN = zero false ∧
    fsub (inf false) (inf false) = nan ∧
    fdiv (zero false) (zero false) = nan := by
  decide

/-! ## The running minimum and maximum -/

theorem min_update_m_min (m : Min) (x : Dbl) :
    (m.update x).m_min = if flt x m.m_min then x else m.m_min := by
  unfold Min.update; split <;> rfl

theorem max_update_m_max (m : Max) (x : Dbl) :
    (m.update x).m_max = if fgt x m.m_max then x else m.m_max := by
  unfold Max.update; split <;> rfl

/-- Invariant of the loop of `Min::update` calls. -/
theorem min_fold (S : List Dbl) : ∀ m : Min, m.m_min.isNaN = false →
    (S.foldl Min.update m).m_min.isNaN = false ∧
    (S.foldl Min.update m).m_min.key ≤ m.m_min.key ∧
    (∀ x ∈ S, x.isNaN = false → (S.foldl Min.update m).m_min.key ≤ x.key) ∧
    ((S.foldl Min.update m).m_min = m.m_min ∨ (S.foldl Min.update m).m_min ∈ S) := by
  induction S with
  | nil => intro m hm; simp [hm]
  | cons y ys ih =>
    intro m hm
    simp only [List.foldl_cons]
    by_cases hlt : flt y m.m_min = true
    · have hy := (flt_iff _ _).1 hlt
      have hu : (m.update y).m_min = y := by rw [min_update_m_min, if_pos hlt]
      obtain ⟨i1, i2, i3, i4⟩ := ih (m.update y) (by rw [hu]; exact hy.1)
      rw [hu] at i2 i4
      refine ⟨i1, by omega, ?_, ?_⟩
      · intro x hx hxn
        rcases List.mem_cons.1 hx with rfl | hx
        · exact i2
        · exact i3 x hx hxn
      · rcases i4 with h | h
        · right; rw [h]; exact List.mem_cons_self _ _
        · right; exact List.mem_cons_of_mem _ h
    · have hu : m.update y = m := by unfold Min.update; rw [if_neg hlt]
      obtain ⟨i1, i2, i3, i4⟩ := ih m hm
      rw [hu]
      refine ⟨i1, i2, ?_, ?_⟩
      · intro x hx hxn
        rcases List.mem_cons.1 hx with rfl | hx
        · have : ¬ (x.key < m.m_min.key) := by
            intro hc; exact hlt ((flt_iff _ _).2 ⟨hxn, hm, hc⟩)
          omega
        · exact i3 x hx hxn
      · rcases i4 with h | h
        · left; exact h
        · right; exact List.mem_cons_of_mem _ h

/-- Invariant of the loop of `Max::update` calls. -/
theorem max_fold (S : List Dbl) : ∀ m : Max, m.m_max.isNaN = false →
    (S.foldl Max.update m).m_max.isNaN = false ∧
    m.m_max.key ≤ (S.foldl Max.update m).m_max.key ∧
    (∀ x ∈ S, x.isNaN = false → x.key ≤ (S.foldl Max.update m).m_max.key) ∧
    ((S.foldl Max.update m).m_max = m.m_max ∨ (S.foldl Max.update m).m_max ∈ S) := by
  induction S with
  | nil => intro m hm; simp [hm]
  | cons y ys ih =>
    intro m hm
    simp only [List.foldl_cons]
    by_cases hlt : fgt y m.m_max = true
    · have hy := (flt_iff _ _).1 hlt
      have hu : (m.update y).m_max = y := by rw [max_update_m_max, if_pos hlt]
      obtain ⟨i1, i2, i3, i4⟩ := ih (m.update y) (by rw [hu]; exact hy.2.1)
      rw [hu] at i2 i4
      refine ⟨i1, by omega, ?_, ?_⟩
      · intro x hx hxn
        rcases List.mem_cons.1 hx with rfl | hx
        · exact i2
        · exact i3 x hx hxn
      · rcases i4 with h | h
        · right; rw [h]; exact List.mem_cons_self _ _
        · right; exact List.mem_cons_of_mem _ h
    · have hu : m.update y = m := by unfold Max.update; rw [if_neg hlt]
      obtain ⟨i1, i2, i3, i4⟩ := ih m hm
      rw [hu]
      refine ⟨i1, i2, ?_, ?_⟩
      · intro x hx hxn
        rcases List.mem_cons.1 hx with rfl | hx
        · have : ¬ (m.m_max.key < x.key) := by
            intro hc; exact hlt ((flt_iff _ _).2 ⟨hm, hxn, hc⟩)
          omega
        · exact i3 x hx hxn
      · rcases i4 with h | h
        · left; exact h
        · right; exact List.mem_cons_of_mem _ h

/-- While no observation is strictly greater than the running maximum, `Max`
keeps its state. -/
theorem max_fold_stuck (S : List Dbl) (m : Max) (h : ∀ x ∈ S, fgt x m.m_max = false) :
    S.foldl Max.update m = m := by
  induction S with
  | nil => rfl
  | cons y ys ih =>
    have hy : fgt y m.m_max = false := h y (List.mem_cons_self _ _)
    have hu : m.update y = m := by unfold Max.update; simp [hy]
    simp only [List.foldl_cons, hu]
    exact ih (fun x hx => h x (List.mem_cons_of_mem _ hx))

theorem min_key_fold (S : List Dbl) : ∀ m : Min, m.m_min.isNaN = false →
    (S.foldl Min.update m).m_min.key = S.foldl minKey m.m_min.key := by
  induction S with
  | nil => intro m _; rfl
  | cons y ys ih =>
    intro m hm
    simp only [List.foldl_cons]
    by_cases hlt : flt y m.m_min = true
    · have hy := (flt_iff _ _).1 hlt
      have hu : (m.update y).m_min = y := by rw [min_update_m_min, if_pos hlt]
      rw [ih (m.update y) (by rw [hu]; exact hy.1), hu]
      congr 1
      unfold minKey
      rw [hy.1]
      simp only [Bool.false_eq_true, if_false]
      omega
    · have hu : m.update y = m := by unfold Min.update; rw [if_neg hlt]
      rw [hu, ih m hm]
      congr 1
      unfold minKey
      cases hyn : y.isNaN
      · have : ¬ (y.key < m.m_min.key) := fun hc => hlt ((flt_iff _ _).2 ⟨hyn, hm, hc⟩)
        simp only [Bool.false_eq_true, if_false]
        omega
      · simp

theorem max_key_fold (S : List Dbl) : ∀ m : Max, m.m_max.isNaN = false →
    (S.foldl Max.update m).m_max.key = S.foldl maxKey m.m_max.key := by
  induction S with
  | nil => intro m _; rfl
  | cons y ys ih =>
    intro m hm
    simp only [List.foldl_cons]
    by_cases hlt : fgt y m.m_max = true
    · have hy := (flt_iff _ _).1 hlt
      have hu : (m.update y).m_max = y := by rw [max_update_m_max, if_pos hlt]
      rw [ih (m.update y) (by rw [hu]; exact hy.2.1), hu]
      congr 1
      unfold maxKey
      rw [hy.2.1]
      simp only [Bool.false_eq_true, if_false]
      omega
    · have hu : m.update y = m := by unfold Max.update; rw [if_neg hlt]
      rw [hu, ih m hm]
      congr 1
      unfold maxKey
      cases hyn : y.isNaN
      · have : ¬ (m.m_max.key < y.key) := fun hc => hlt ((flt_iff _ _).2 ⟨hm, hyn, hc⟩)
        simp only [Bool.false_eq_true, if_false]
        omega
      · simp

theorem minKey_comm (z : Int) (x y : Dbl) : minKey (minKey z x) y = minKey (minKey z y) x := by
  unfold minKey
  cases x.isNaN <;> cases y.isNaN <;> simp only [Bool.false_eq_true, if_true, if_false]
  omega

theorem maxKey_comm (z : Int) (x y : Dbl) : maxKey (maxKey z x) y = maxKey (maxKey z y) x := by
  unfold maxKey
  cases x.isNaN <;> cases y.isNaN <;> simp only [Bool.false_eq_true, if_true, if_false]
  omega

theorem DBL_MAX_key : DBL_MAX.key = (((2 ^ 53 - 1) * 2 ^ 2045 : Nat) : Int) := by decide

theorem min_consume_not_nan (S : List Dbl) : (Min.consume S).eval.isNaN = false :=
  (min_fold S Min.ctor rfl).1

theorem max_consume_not_nan (S : List Dbl) : (Max.consume S).eval.isNaN = false :=
  (max_fold S Max.ctor rfl).1

theorem run_eval_replicate (o : IStatistics) (n : Nat) :
    o.run (List.replicate n Call.eval) = (o, List.replicate n o.eval) := by
  induction n with
  | zero => rfl
  | succ k ih =>
    simp only [List.replicate_succ, IStatistics.run, IStatistics.step, ih]
    rfl

theorem consume_min (S : List Dbl) : ∀ s : Min,
    (IStatistics.min s).consume S = IStatistics.min (S.foldl Min.update s) := by
  induction S with
  | nil => intro s; rfl
  | cons x xs ih => intro s; exact ih (s.update x)

theorem consume_max (S : List Dbl) : ∀ s : Max,
    (IStatistics.max s).consume S = IStatistics.max (S.foldl Max.update s) := by
  induction S with
  | nil => intro s; rfl
  | cons x xs ih => intro s; exact ih (s.update x)

theorem consume_mean (S : List Dbl) : ∀ s : Mean,
    (IStatistics.mean s).consume S = IStatistics.mean (S.foldl Mean.update s) := by
  induction S with
  | nil => intro s; rfl
  | cons x xs ih => intro s; exact ih (s.update x)

theorem consume_std (S : List Dbl) : ∀ s : Std,
    (IStatistics.std s).consume S = IStatistics.std (S.foldl Std.update s) := by
  induction S with
  | nil => intro s; rfl
  | cons x xs ih => intro s; exact ih (s.update x)

/-! ## The running sum and count of `Mean`, the vector of `Std` -/

theorem wrapInt32_of_range (i : Int) (h0 : 0 ≤ i) (h1 : i < 2 ^ 31) : wrapInt32 i = i := by
  unfold wrapInt32; omega

theorem wrapInt32_add (a b : Int) : wrapInt32 (wrapInt32 a + b) = wrapInt32 (a + b) := by
  unfold wrapInt32; omega

theorem wrapInt32_idem (a : Int) : wrapInt32 (wrapInt32 a) = wrapInt32 a := by
  unfold wrapInt32; omega

theorem mean_fold_sum (S : List Dbl) : ∀ s : Mean,
    (S.foldl Mean.update s).m_sum = S.foldl fadd s.m_sum := by
  induction S with
  | nil => intro s; rfl
  | cons x xs ih => intro s; simp only [List.foldl_cons]; rw [ih]; rfl

/-- The counter of `Mean` after `S`, for a counter in the range of `int`. -/
theorem mean_fold_cnt (S : List Dbl) : ∀ s : Mean, wrapInt32 s.m_cnt = s.m_cnt →
    (S.foldl Mean.update s).m_cnt = wrapInt32 (s.m_cnt + S.length) := by
  induction S with
  | nil => intro s hs; simpa using hs.symm
  | cons x xs ih =>
    intro s _
    simp only [List.foldl_cons, List.length_cons]
    rw [ih (s.update x) (by simp only [Mean.update]; exact wrapInt32_idem _)]
    simp only [Mean.update]
    rw [wrapInt32_add]
    congr 1
    push_cast
    ring

theorem mean_consume_sum (S : List Dbl) : (Mean.consume S).m_sum = specSum S :=
  mean_fold_sum S Mean.ctor

theorem mean_consume_cnt (S : List Dbl) : (Mean.consume S).m_cnt = wrapInt32 S.length := by
  have h := mean_fold_cnt S Mean.ctor (by decide)
  simpa [Mean.ctor] using h

theorem ofInt_natCast (n : Nat) : ofInt (n : Int) = ofNat n := by
  unfold ofInt ofNat
  have h : decide ((n : Int) < 0) = false := by simp
  rw [h, Int.natAbs_ofNat]

theorem foldl_fadd_replicate (a z : Dbl) (h : fadd a z = a) (n : Nat) :
    (List.replicate n z).foldl fadd a = a := by
  induction n with
  | zero => rfl
  | succ k ih => simp only [List.replicate_succ, List.foldl_cons, h, ih]

theorem std_fold_vector (S : List Dbl) : ∀ s : Std,
    (S.foldl Std.update s).m_vector = s.m_vector ++ S := by
  induction S with
  | nil => intro s; simp
  | cons x xs ih => intro s; simp only [List.foldl_cons]; rw [ih]; simp [Std.update]

theorem std_consume_vector (S : List Dbl) : (Std.consume S).m_vector = S := by
  have h := std_fold_vector S Std.ctor
  simpa [Std.ctor] using h

theorem std_eval_eq_specStd (s : Std) : s.eval = specStd s.m_vector := by
  unfold Std.eval specStd specMean specSum
  simp only [List.foldl_map]
  rfl

/-! ## Rounding: sign, NaN-freedom, and the conversion of a size -/

theorem log2Aux_spec (k : Nat) : ∀ n acc : Nat, 1 ≤ n →
    ∃ r, log2Aux k n acc = acc + r ∧ 2 ^ r ≤ n := by
  induction k with
  | zero => intro n acc hn; exact ⟨0, rfl, by simpa using hn⟩
  | succ k ih =>
    intro n acc hn
    unfold log2Aux
    by_cases h : 2 ^ (2 ^ k) ≤ n
    · rw [if_pos h]
      have hq : 1 ≤ n / 2 ^ (2 ^ k) := (Nat.one_le_div_iff (Nat.two_pow_pos _)).2 h
      obtain ⟨r, hr, hle⟩ := ih (n / 2 ^ (2 ^ k)) (acc + 2 ^ k) hq
      refine ⟨2 ^ k + r, by rw [hr]; ring, ?_⟩
      rw [pow_add]
      calc 2 ^ (2 ^ k) * 2 ^ r ≤ 2 ^ (2 ^ k) * (n / 2 ^ (2 ^ k)) := Nat.mul_le_mul_left _ hle
        _ ≤ n := Nat.mul_div_le n _
    · rw [if_neg h]
      exact ih n acc hn

/-- The leading bit found by `ilog2` is a bit of `n`. -/
theorem ilog2_le (n : Nat) (hn : 1 ≤ n) : 2 ^ ilog2 n ≤ n := by
  obtain ⟨r, hr, hle⟩ := log2Aux_spec 12 n 0 hn
  unfold ilog2
  rw [hr, Nat.zero_add]
  exact hle

theorem pack_isNaN (neg : Bool) (k e : Nat) : (pack neg k e).isNaN = false := by
  unfold pack
  split
  · rfl
  · split
    · split <;> rfl
    · split <;> rfl

theorem pack_isNeg (neg : Bool) (k e : Nat) : (pack neg k e).isNeg = neg := by
  unfold pack
  split
  · rfl
  · split
    · split <;> rfl
    · split <;> rfl

theorem round_isNaN (neg : Bool) (num den : Nat) : (round neg num den).isNaN = false := by
  unfold round
  simp only
  split
  · rfl
  · exact pack_isNaN _ _ _

theorem round_isNeg (neg : Bool) (num den : Nat) : (round neg num den).isNeg = neg := by
  unfold round
  simp only
  split
  · rfl
  · exact pack_isNeg _ _ _

theorem le_rne (num den : Nat) : num / den ≤ rne num den := by
  unfold rne
  simp only
  split
  · exact le_refl _
  · split
    · omega
    · split <;> omega

theorem rne_le (num den : Nat) : rne num den ≤ num / den + 1 := by
  unfold rne
  simp only
  split
  · omega
  · split
    · omega
    · split <;> omega

/-- A size `1 ≤ n < 2^64` converts to a positive normal double. -/
theorem ofNat_pos (n : Nat) (h1 : 1 ≤ n) (h2 : n < 2 ^ 64) :
    ∃ e f, ofNat n = norm false e f := by
  unfold ofNat round
  simp only [Nat.div_one, Nat.one_mul]
  have hq1 : 2 ^ 1074 ≤ n * 2 ^ 1074 := Nat.le_mul_of_pos_left _ h1
  have hq2 : n * 2 ^ 1074 < 2 ^ 1138 := by
    calc n * 2 ^ 1074 < 2 ^ 64 * 2 ^ 1074 := Nat.mul_lt_mul_of_pos_right h2 (Nat.two_pow_pos _)
      _ = 2 ^ 1138 := by rw [← pow_add]
  have hbig : ¬ (2 ^ 2100 ≤ n * 2 ^ 1074) := by
    have : (2 : Nat) ^ 1138 ≤ 2 ^ 2100 := Nat.pow_le_pow_right (by norm_num) (by norm_num)
    omega
  have hsmall : ¬ (n * 2 ^ 1074 < 2 ^ 53) := by
    have : (2 : Nat) ^ 53 ≤ 2 ^ 1074 := Nat.pow_le_pow_right (by norm_num) (by norm_num)
    omega
  rw [if_neg hbig, if_neg hsmall]
  have hl := ilog2_le (n * 2 ^ 1074) (by omega)
  have hl2 : ilog2 (n * 2 ^ 1074) < 1138 := by
    by_contra hc
    have : (2 : Nat) ^ 1138 ≤ 2 ^ ilog2 (n * 2 ^ 1074) :=
      Nat.pow_le_pow_right (by norm_num) (by omega)
    omega
  have hl3 : 1074 ≤ ilog2 (n * 2 ^ 1074) ∨ ilog2 (n * 2 ^ 1074) < 1074 := by omega
  generalize hE : ilog2 (n * 2 ^ 1074) - 52 = e at *
  have he : e < 1138 := by omega
  have hk : 2 ^ 52 ≤ rne (n * 2 ^ 1074) (2 ^ e) := by
    refine le_trans ?_ (le_rne _ _)
    rw [Nat.le_div_iff_mul_le (Nat.two_pow_pos _), ← pow_add]
    by_cases h52 : 52 ≤ ilog2 (n * 2 ^ 1074)
    · have : 52 + e = ilog2 (n * 2 ^ 1074) := by omega
      rw [this]; exact hl
    · have : 52 + e = 52 := by omega
      rw [this]
      have : (2 : Nat) ^ 52 ≤ 2 ^ 1074 := Nat.pow_le_pow_right (by norm_num) (by norm_num)
      omega
  unfold pack
  rw [dif_neg (by omega)]
  split
  · rw [dif_pos (by omega)]; exact ⟨_, _, rfl⟩
  · rw [dif_pos (by omega)]; exact ⟨_, _, rfl⟩

/-! ## Sign and NaN-freedom through the arithmetic -/

theorem zero_isNaN (s : Bool) : (zero s).isNaN = false := rfl

theorem zero_isNeg (s : Bool) : (zero s).isNeg = s := rfl

theorem fadd_fin_fin_isNaN {a b : Dbl} (ha : a.isFinite = true) (hb : b.isFinite = true) :
    (fadd a b).isNaN = false := by
  cases a <;> cases b <;> simp [isFinite] at ha hb <;>
    (unfold fadd; simp only; split <;> first | exact zero_isNaN _ | exact round_isNaN _ _ _)

theorem fadd_isNaN_of_finite {a b : Dbl} (ha : a.isNaN = false) (hb : b.isFinite = true) :
    (fadd a b).isNaN = false := by
  cases a with
  | nan => simp [isNaN] at ha
  | inf s => cases b <;> simp [isFinite] at hb <;> rfl
  | sub s m => exact fadd_fin_fin_isNaN rfl hb
  | norm s e f => exact fadd_fin_fin_isNaN rfl hb

theorem fadd_finite_isNaN {a b : Dbl} (ha : a.isFinite = true) (hb : b.isNaN = false) :
    (fadd a b).isNaN = false := by
  cases b with
  | nan => simp [isNaN] at hb
  | inf s => cases a <;> simp [isFinite] at ha <;> rfl
  | sub s m => exact fadd_fin_fin_isNaN ha rfl
  | norm s e f => exact fadd_fin_fin_isNaN ha rfl

theorem fneg_isNaN {a : Dbl} (ha : a.isNaN = false) : (fneg a).isNaN = false := by
  cases a <;> simp [isNaN] at ha <;> rfl

theorem fsub_finite_isNaN {a b : Dbl} (ha : a.isFinite = true) (hb : b.isNaN = false) :
    (fsub a b).isNaN = false :=
  fadd_finite_isNaN ha (fneg_isNaN hb)

theorem toInt_nonneg {d : Dbl} (h : d.isNeg = false) : d.toInt = d.mag := by
  unfold toInt; simp [h]

theorem fadd_fin_fin_nonneg {a b : Dbl} (fa : a.isFinite = true) (fb : b.isFinite = true)
    (ha : a.isNeg = false) (hb : b.isNeg = false) : NonNeg (fadd a b) := by
  have hz : ¬ (a.toInt + b.toInt < 0) := by
    rw [toInt_nonneg ha, toInt_nonneg hb]; omega
  cases a <;> cases b <;> simp [isFinite] at fa fb <;>
    (unfold fadd; simp only; split
     · exact ⟨zero_isNaN _, by rw [zero_isNeg, ha, hb]; rfl⟩
     · exact ⟨round_isNaN _ _ _, by rw [round_isNeg]; exact decide_eq_false hz⟩)

theorem fadd_nonneg {a b : Dbl} (ha : NonNeg a) (hb : NonNeg b) : NonNeg (fadd a b) := by
  obtain ⟨ha1, ha2⟩ := ha
  obtain ⟨hb1, hb2⟩ := hb
  cases a with
  | nan => simp [isNaN] at ha1
  | inf s =>
    simp only [isNeg] at ha2; subst ha2
    cases b with
    | nan => simp [isNaN] at hb1
    | inf t => simp only [isNeg] at hb2; subst hb2; exact ⟨rfl, rfl⟩
    | sub t m => exact ⟨rfl, rfl⟩
    | norm t e f => exact ⟨rfl, rfl⟩
  | sub s m =>
    cases b with
    | nan => simp [isNaN] at hb1
    | inf t => simp only [isNeg] at hb2; subst hb2; exact ⟨rfl, rfl⟩
    | sub t m' => exact fadd_fin_fin_nonneg rfl rfl ha2 hb2
    | norm t e f => exact fadd_fin_fin_nonneg rfl rfl ha2 hb2
  | norm s e f =>
    cases b with
    | nan => simp [isNaN] at hb1
    | inf t => simp only [isNeg] at hb2; subst hb2; exact ⟨rfl, rfl⟩
    | sub t m' => exact fadd_fin_fin_nonneg rfl rfl ha2 hb2
    | norm t e' f' => exact fadd_fin_fin_nonneg rfl rfl ha2 hb2

theorem fmul_self_nonneg {x : Dbl} (hx : x.isNaN = false) : NonNeg (fmul x x) := by
  cases x with
  | nan => simp [isNaN] at hx
  | inf s => exact ⟨rfl, by simp [fmul, isNeg]⟩
  | sub s m => exact ⟨round_isNaN _ _ _, by unfold fmul; simp only; rw [round_isNeg]; simp⟩
  | norm s e f => exact ⟨round_isNaN _ _ _, by unfold fmul; simp only; rw [round_isNeg]; simp⟩

theorem fdiv_norm_isNaN {a : Dbl} (ha : a.isNaN = false) (e : Fin 2046) (f : Fin (2 ^ 52)) :
    (fdiv a (norm false e f)).isNaN = false := by
  have hm : (norm false e f).mag ≠ 0 := by have := mag_norm_ge false e f; omega
  cases a with
  | nan => simp [isNaN] at ha
  | inf s => rfl
  | sub s m => unfold fdiv; simp only; rw [if_neg hm]; exact round_isNaN _ _ _
  | norm s e' f' => unfold fdiv; simp only; rw [if_neg hm]; exact round_isNaN _ _ _

theorem fdiv_norm_nonneg {a : Dbl} (ha : NonNeg a) (e : Fin 2046) (f : Fin (2 ^ 52)) :
    NonNeg (fdiv a (norm false e f)) := by
  refine ⟨fdiv_norm_isNaN ha.1 e f, ?_⟩
  have hm : (norm false e f).mag ≠ 0 := by have := mag_norm_ge false e f; omega
  obtain ⟨ha1, ha2⟩ := ha
  cases a with
  | nan => simp [isNaN] at ha1
  | inf s => simp only [isNeg] at ha2; subst ha2; rfl
  | sub s m =>
    simp only [isNeg] at ha2; subst ha2
    unfold fdiv; simp only; rw [if_neg hm, round_isNeg]; rfl
  | norm s e' f' =>
    simp only [isNeg] at ha2; subst ha2
    unfold fdiv; simp only; rw [if_neg hm, round_isNeg]; rfl

theorem fsqrt_nonneg {a : Dbl} (ha : NonNeg a) : NonNeg (fsqrt a) := by
  obtain ⟨ha1, ha2⟩ := ha
  cases a with
  | nan => simp [isNaN] at ha1
  | inf s => simp only [isNeg] at ha2; subst ha2; exact ⟨rfl, rfl⟩
  | sub s m =>
    simp only [isNeg] at ha2; subst ha2
    unfold fsqrt; simp only
    split
    · exact ⟨rfl, rfl⟩
    · rw [if_neg (by simp [isNeg])]; exact ⟨round_isNaN _ _ _, round_isNeg _ _ _⟩
  | norm s e f =>
    simp only [isNeg] at ha2; subst ha2
    unfold fsqrt; simp only
    split
    · exact ⟨rfl, rfl⟩
    · rw [if_neg (by simp [isNeg])]; exact ⟨round_isNaN _ _ _, round_isNeg _ _ _⟩

theorem key_nonneg {d : Dbl} (h : NonNeg d) : 0 ≤ d.key := by
  obtain ⟨h1, h2⟩ := h
  cases d with
  | nan => simp [isNaN] at h1
  | inf s => simp only [isNeg] at h2; subst h2; rw [key_inf_false]; exact Int.ofNat_nonneg _
  | sub s m => rw [key_of_finite (d := sub s m) rfl, toInt_nonneg h2]; exact Int.ofNat_nonneg _
  | norm s e f =>
    rw [key_of_finite (d := norm s e f) rfl, toInt_nonneg h2]; exact Int.ofNat_nonneg _

theorem fge_zero_of_nonneg {d : Dbl} (h : NonNeg d) : fge d (zero false) = true := by
  unfold fge
  refine (fle_iff _ _).2 ⟨rfl, h.1, ?_⟩
  have : (zero false).key = 0 := by decide
  rw [this]; exact key_nonneg h

/-- Adding finite observations never produces NaN. -/
theorem foldl_fadd_isNaN (S : List Dbl) (hS : ∀ x ∈ S, x.isFinite = true) :
    ∀ acc : Dbl, acc.isNaN = false → (S.foldl fadd acc).isNaN = false := by
  induction S with
  | nil => intro acc h; exact h
  | cons x xs ih =>
    intro acc h
    simp only [List.foldl_cons]
    exact ih (fun y hy => hS y (List.mem_cons_of_mem _ hy)) _
      (fadd_isNaN_of_finite h (hS x (List.mem_cons_self _ _)))

/-- Adding non-negative terms gives a non-negative sum. -/
theorem foldl_fadd_nonneg (T : List Dbl) (hT : ∀ x ∈ T, NonNeg x) :
    ∀ acc : Dbl, NonNeg acc → NonNeg (T.foldl fadd acc) := by
  induction T with
  | nil => intro acc h; exact h
  | cons x xs ih =>
    intro acc h
    simp only [List.foldl_cons]
    exact ih (fun y hy => hT y (List.mem_cons_of_mem _ hy)) _
      (fadd_nonneg h (hT x (List.mem_cons_self _ _)))

/-! ## Sums without rounding -/

theorem addExact_iff (a b : Dbl) : addExact a b = true ↔
    a.isFinite = true ∧ b.isFinite = true ∧ (fadd a b).isFinite = true ∧
      (fadd a b).toInt = a.toInt + b.toInt := by
  simp [addExact, and_assoc]

theorem finite_mag_zero {a : Dbl} (fa : a.isFinite = true) (hm : a.mag = 0) :
    a = zero a.isNeg := by
  refine mag_inj fa rfl rfl ?_
  rw [hm]; rfl

theorem toInt_eq_zero {a : Dbl} (h : a.toInt = 0) : a.mag = 0 := by
  unfold toInt at h
  split at h <;> omega

/-- Two finite doubles of the same value are the same double, the zero `-0`
apart. -/
theorem toInt_inj {a b : Dbl} (fa : a.isFinite = true) (fb : b.isFinite = true)
    (ha : a ≠ zero true) (hb : b ≠ zero true) (h : a.toInt = b.toInt) : a = b := by
  have na : a.isNaN = false := by cases a <;> simp [isFinite, isNaN] at fa ⊢
  have nb : b.isNaN = false := by cases b <;> simp [isFinite, isNaN] at fb ⊢
  by_cases h0 : a.toInt = 0
  · have ea := finite_mag_zero fa (toInt_eq_zero h0)
    have eb := finite_mag_zero fb (toInt_eq_zero (h ▸ h0))
    have sa : a.isNeg = false := by
      cases hs : a.isNeg
      · rfl
      · rw [hs] at ea; exact absurd ea ha
    have sb : b.isNeg = false := by
      cases hs : b.isNeg
      · rfl
      · rw [hs] at eb; exact absurd eb hb
    rw [ea, eb, sa, sb]
  · refine key_inj na nb ?_ ?_
    · rw [key_of_finite fa, key_of_finite fb]; exact h
    · rw [key_of_finite fa]; exact h0

/-- An exact addition whose first operand is not `-0` does not give `-0`. -/
theorem fadd_ne_negzero {a b : Dbl} (h : addExact a b = true) (ha : a ≠ zero true) :
    fadd a b ≠ zero true := by
  obtain ⟨fa, fb, fr, hv⟩ := (addExact_iff a b).1 h
  intro hc
  have hz : a.toInt + b.toInt = 0 := by rw [← hv, hc]; decide
  have hdef : fadd a b = zero (a.isNeg && b.isNeg) := by
    cases a <;> cases b <;> simp [isFinite] at fa fb <;>
      (unfold fadd; simp only; rw [if_pos hz])
  rw [hdef] at hc
  have hs : (a.isNeg && b.isNeg) = true := by
    have := congrArg Dbl.isNeg hc
    simpa [zero_isNeg] using this
  have hsa : a.isNeg = true := by
    cases h1 : a.isNeg
    · rw [h1] at hs; simp at hs
    · rfl
  have hsb : b.isNeg = true := by
    cases h1 : b.isNeg
    · rw [h1] at hs; simp at hs
    · rfl
  have hma : a.mag = 0 := by
    unfold toInt at hz
    rw [hsa, hsb] at hz
    simp only [if_true] at hz
    omega
  have := finite_mag_zero fa hma
  rw [hsa] at this
  exact ha this

/-- When every addition is exact the floating-point sum has the integer sum of
the values as its value. -/
theorem sumExact_fold (S : List Dbl) : ∀ acc : Dbl, acc.isFinite = true → acc ≠ zero true →
    sumExact acc S = true →
    (S.foldl fadd acc).isFinite = true ∧ S.foldl fadd acc ≠ zero true ∧
      (S.foldl fadd acc).toInt = acc.toInt + (S.map Dbl.toInt).sum := by
  induction S with
  | nil => intro acc fa ha _; simp [fa, ha]
  | cons x xs ih =>
    intro acc fa ha h
    simp only [sumExact, Bool.and_eq_true] at h
    obtain ⟨h1, h2⟩ := h
    obtain ⟨_, _, fr, hv⟩ := (addExact_iff acc x).1 h1
    obtain ⟨i1, i2, i3⟩ := ih (fadd acc x) fr (fadd_ne_negzero h1 ha) h2
    simp only [List.foldl_cons, List.map_cons, List.sum_cons]
    refine ⟨i1, i2, ?_⟩
    rw [i3, hv]; ring

/-- The sum of a sequence does not depend on the order of its elements as long
as no addition rounds, in either order. -/
theorem specSum_perm {S P : List Dbl} (h : S.Perm P) (hS : sumExact (zero false) S = true)
    (hP : sumExact (zero false) P = true) : specSum S = specSum P := by
  obtain ⟨s1, s2, s3⟩ := sumExact_fold S (zero false) rfl (by decide) hS
  obtain ⟨p1, p2, p3⟩ := sumExact_fold P (zero false) rfl (by decide) hP
  refine toInt_inj s1 p1 s2 p2 ?_
  show (List.foldl fadd (zero false) S).toInt = (List.foldl fadd (zero false) P).toInt
  rw [s3, p3, (h.map Dbl.toInt).sum_eq]

/-! ## Correctness of the rounding primitives -/

theorem log2Aux_upper (k : Nat) : ∀ n acc : Nat, 1 ≤ n → n < 2 ^ (2 ^ k) →
    ∃ r, log2Aux k n acc = acc + r ∧ 2 ^ r ≤ n ∧ n < 2 ^ (r + 1) := by
  induction k with
  | zero =>
    intro n acc hn hlt
    refine ⟨0, rfl, by simpa using hn, ?_⟩
    simpa using hlt
  | succ k ih =>
    intro n acc hn hlt
    unfold log2Aux
    by_cases h : 2 ^ (2 ^ k) ≤ n
    · rw [if_pos h]
      have hpos : 0 < 2 ^ (2 ^ k) := Nat.two_pow_pos _
      have hq : 1 ≤ n / 2 ^ (2 ^ k) := (Nat.one_le_div_iff hpos).2 h
      have hsq : (2 : Nat) ^ (2 ^ (k + 1)) = 2 ^ (2 ^ k) * 2 ^ (2 ^ k) := by
        rw [← pow_add]; congr 1; rw [pow_succ]; omega
      have hq2 : n / 2 ^ (2 ^ k) < 2 ^ (2 ^ k) := by
        rw [Nat.div_lt_iff_lt_mul hpos]; rw [hsq] at hlt; exact hlt
      obtain ⟨r, hr, hle, hup⟩ := ih (n / 2 ^ (2 ^ k)) (acc + 2 ^ k) hq hq2
      refine ⟨2 ^ k + r, by rw [hr]; ring, ?_, ?_⟩
      · rw [pow_add]
        calc 2 ^ (2 ^ k) * 2 ^ r ≤ 2 ^ (2 ^ k) * (n / 2 ^ (2 ^ k)) := Nat.mul_le_mul_left _ hle
          _ ≤ n := Nat.mul_div_le n _
      · have h1 : n < 2 ^ (2 ^ k) * (n / 2 ^ (2 ^ k) + 1) := Nat.lt_mul_div_succ n hpos
        have h2 : 2 ^ (2 ^ k) * (n / 2 ^ (2 ^ k) + 1) ≤ 2 ^ (2 ^ k) * 2 ^ (r + 1) :=
          Nat.mul_le_mul_left _ hup
        have h3 : (2 : Nat) ^ (2 ^ k + r + 1) = 2 ^ (2 ^ k) * 2 ^ (r + 1) := by
          rw [← pow_add]; congr 1
        rw [h3]; omega
    · rw [if_neg h]
      exact ih n acc hn (by omega)

/-- The function `ilog2` is the floor of the binary logarithm on `[1, 2^4096)`. -/
theorem ilog2_spec (n : Nat) (hn : 1 ≤ n) (hlt : n < 2 ^ 4096) :
    2 ^ ilog2 n ≤ n ∧ n < 2 ^ (ilog2 n + 1) := by
  obtain ⟨r, hr, hle, hup⟩ := log2Aux_upper 12 n 0 hn (by simpa using hlt)
  unfold ilog2
  rw [hr, Nat.zero_add]
  exact ⟨hle, hup⟩

/-- The position of the leading bit is determined by the number. -/
theorem ilog2_unique (n a : Nat) (hlt : n < 2 ^ 4096) (h1 : 2 ^ a ≤ n) (h2 : n < 2 ^ (a + 1)) :
    ilog2 n = a := by
  have hn : 1 ≤ n := le_trans Nat.one_le_two_pow h1
  obtain ⟨l1, l2⟩ := ilog2_spec n hn hlt
  have p1 : ilog2 n < a + 1 := by
    by_contra hc
    have : (2 : Nat) ^ (a + 1) ≤ 2 ^ ilog2 n := Nat.pow_le_pow_right (by norm_num) (by omega)
    omega
  have p2 : a < ilog2 n + 1 := by
    by_contra hc
    have : (2 : Nat) ^ (ilog2 n + 1) ≤ 2 ^ a := Nat.pow_le_pow_right (by norm_num) (by omega)
    omega
  omega

theorem sqrtAux_spec (i : Nat) : ∀ n r : Nat, r * r ≤ n → n < (r + 2 ^ i) * (r + 2 ^ i) →
    sqrtAux i n r * sqrtAux i n r ≤ n ∧ n < (sqrtAux i n r + 1) * (sqrtAux i n r + 1) := by
  induction i with
  | zero => intro n r h1 h2; exact ⟨h1, by simpa using h2⟩
  | succ i ih =>
    intro n r h1 h2
    unfold sqrtAux
    by_cases h : (r + 2 ^ i) * (r + 2 ^ i) ≤ n
    · rw [if_pos h]
      refine ih n (r + 2 ^ i) h ?_
      have : r + 2 ^ i + 2 ^ i = r + 2 ^ (i + 1) := by rw [pow_succ]; omega
      rw [this]; exact h2
    · rw [if_neg h]
      exact ih n r h1 (by omega)

/-- The function `isqrt` is the floor of the square root on `[0, 2^4096)`. -/
theorem isqrt_spec (n : Nat) (hlt : n < 2 ^ 4096) :
    isqrt n * isqrt n ≤ n ∧ n < (isqrt n + 1) * (isqrt n + 1) := by
  unfold isqrt
  refine sqrtAux_spec _ n 0 (by simp) ?_
  rw [Nat.zero_add, ← pow_add]
  rcases Nat.eq_zero_or_pos n with h0 | hpos
  · rw [h0]; exact Nat.two_pow_pos _
  · have h := (ilog2_spec n hpos hlt).2
    have : (2 : Nat) ^ (ilog2 n + 1) ≤ 2 ^ (ilog2 n / 2 + 1 + (ilog2 n / 2 + 1)) :=
      Nat.pow_le_pow_right (by norm_num) (by omega)
    omega

theorem isqrt_eq_sqrt (n : Nat) (hlt : n < 2 ^ 4096) : isqrt n = Nat.sqrt n := by
  obtain ⟨h1, h2⟩ := isqrt_spec n hlt
  exact Nat.eq_sqrt.2 ⟨h1, h2⟩

theorem rne_mul (k X : Nat) (hX : 0 < X) : rne (k * X) X = k := by
  unfold rne
  simp only [Nat.mul_div_cancel _ hX, Nat.mul_mod_left, Nat.mul_zero]
  rw [if_pos hX]

/-- The integer `rne num den` is within one half of `num / den`. -/
theorem rne_near (num den : Nat) (hden : 0 < den) :
    2 * (rne num den * den) ≤ 2 * num + den ∧ 2 * num ≤ 2 * (rne num den * den) + den := by
  have h1 := Nat.div_add_mod num den
  have h2 := Nat.mod_lt num hden
  have h3 : (num / den + 1) * den = den * (num / den) + den := by ring
  have h4 : num / den * den = den * (num / den) := Nat.mul_comm _ _
  unfold rne
  simp only
  split
  · rw [h4]; omega
  · split
    · rw [h3]; omega
    · split
      · rw [h4]; omega
      · rw [h3]; omega

/-- Rounding is exact on doubles: a value `d.mag` (here as the fraction
`d.mag * D / D`) that is the magnitude of a finite double `d` rounds to `d`. -/
theorem round_exact (d : Dbl) (hd : d.isFinite = true) (D : Nat) (hD : 0 < D) :
    round d.isNeg (d.mag * D) D = d := by
  have hmax := mag_le_max d
  have hbig : ¬ (2 ^ 2100 ≤ d.mag) := by
    have : (2 ^ 53 - 1) * 2 ^ 2045 < 2 ^ 2100 := by norm_num
    omega
  unfold round
  simp only [Nat.mul_div_cancel _ hD]
  rw [if_neg hbig]
  cases d with
  | nan => simp [isFinite] at hd
  | inf s => simp [isFinite] at hd
  | sub s m =>
    have hm := m.isLt
    simp only [mag, isNeg]
    rw [if_pos (by omega), pow_zero, Nat.mul_one, rne_mul _ _ hD]
    unfold pack
    rw [dif_pos hm]
  | norm s e f =>
    have hf := f.isLt
    have he := e.isLt
    simp only [mag, isNeg]
    have hlo : 2 ^ (52 + e.val) ≤ (2 ^ 52 + f.val) * 2 ^ e.val := by
      rw [pow_add]; exact Nat.mul_le_mul_right _ (Nat.le_add_right _ _)
    have hhi : (2 ^ 52 + f.val) * 2 ^ e.val < 2 ^ (52 + e.val + 1) := by
      have : (2 : Nat) ^ (52 + e.val + 1) = 2 ^ 53 * 2 ^ e.val := by
        rw [← pow_add]; congr 1; omega
      rw [this]
      exact Nat.mul_lt_mul_of_pos_right (by omega) (Nat.two_pow_pos _)
    have h4096 : (2 ^ 52 + f.val) * 2 ^ e.val < 2 ^ 4096 := by
      have : (2 : Nat) ^ 2100 ≤ 2 ^ 4096 := Nat.pow_le_pow_right (by norm_num) (by norm_num)
      simp only [mag] at hbig
      omega
    have hlog := ilog2_unique _ _ h4096 hlo hhi
    have hexp : (if (2 ^ 52 + f.val) * 2 ^ e.val < 2 ^ 53 then 0
        else ilog2 ((2 ^ 52 + f.val) * 2 ^ e.val) - 52) = e.val := by
      split
      · rename_i hsm
        by_contra hne
        have : (2 : Nat) ^ 53 ≤ 2 ^ (52 + e.val) :=
          Nat.pow_le_pow_right (by norm_num) (by omega)
        omega
      · rw [hlog]; omega
    rw [hexp]
    have hnum : (2 ^ 52 + f.val) * 2 ^ e.val * D = (2 ^ 52 + f.val) * (D * 2 ^ e.val) := by ring
    rw [hnum, rne_mul _ _ (Nat.mul_pos hD (Nat.two_pow_pos _))]
    unfold pack
    rw [dif_neg (by omega), dif_pos (by omega), dif_pos he]
    have hf2 : 2 ^ 52 + f.val - 2 ^ 52 = f.val := Nat.add_sub_cancel_left _ _
    simp only [hf2, Fin.eta]

/-! ## The range of the counter of `Mean` -/

theorem wrapInt32_range (i : Int) : -(2 ^ 31) ≤ wrapInt32 i ∧ wrapInt32 i < 2 ^ 31 := by
  unfold wrapInt32; omega

/-! ## A single observation -/

theorem finite_isNaN {d : Dbl} (h : d.isFinite = true) : d.isNaN = false := by
  cases d <;> simp [isFinite, isNaN] at h ⊢

theorem finite_le_max {d : Dbl} (h : d.isFinite = true) : fle d DBL_MAX = true := by
  refine (fle_iff _ _).2 ⟨finite_isNaN h, rfl, ?_⟩
  rw [key_of_finite h, DBL_MAX_key]
  have hm := mag_le_max d
  have hm' : (d.mag : Int) ≤ (((2 ^ 53 - 1) * 2 ^ 2045 : Nat) : Int) := by exact_mod_cast hm
  unfold toInt
  split <;> omega

/-- A first observation `x <= DBL_MAX` becomes the running minimum. -/
theorem min_first_update (x : Dbl) (hx : fle x DBL_MAX = true) :
    (Min.ctor.update x).m_min = x := by
  obtain ⟨hn, _, hk⟩ := (fle_iff _ _).1 hx
  rw [min_update_m_min]
  by_cases hlt : flt x Min.ctor.m_min = true
  · rw [if_pos hlt]
  · rw [if_neg hlt]
    have hnot : ¬ (x.key < DBL_MAX.key) := fun hc => hlt ((flt_iff _ _).2 ⟨hn, rfl, hc⟩)
    have hkey : x.key = DBL_MAX.key := by omega
    have hne : x.key ≠ 0 := by rw [hkey, DBL_MAX_key]; norm_num
    have hx : x = DBL_MAX := key_inj hn (show DBL_MAX.isNaN = false from rfl) hkey hne
    rw [hx]; rfl

/-- A first observation `x >= DBL_MIN` becomes the running maximum. -/
theorem max_first_update (x : Dbl) (hx : fle DBL_MIN x = true) :
    (Max.ctor.update x).m_max = x := by
  obtain ⟨_, hn, hk⟩ := (fle_iff _ _).1 hx
  rw [max_update_m_max]
  by_cases hlt : fgt x Max.ctor.m_max = true
  · rw [if_pos hlt]
  · rw [if_neg hlt]
    have hnot : ¬ (DBL_MIN.key < x.key) := fun hc => hlt ((flt_iff _ _).2 ⟨rfl, hn, hc⟩)
    have hkey : x.key = DBL_MIN.key := by omega
    have hmin : DBL_MIN.key = ((2 ^ 52 : Nat) : Int) := by decide
    have hne : x.key ≠ 0 := by rw [hkey, hmin]; norm_num
    have hx : x = DBL_MIN := key_inj hn (show DBL_MIN.isNaN = false from rfl) hkey hne
    rw [hx]; rfl

theorem toInt_neg_iff {d : Dbl} (h : d.mag ≠ 0) : decide (d.toInt < 0) = d.isNeg := by
  unfold toInt
  cases hs : d.isNeg
  · simp
  · simp; omega

theorem toInt_natAbs (d : Dbl) : d.toInt.natAbs = d.mag := by
  unfold toInt
  split <;> simp

/-- Adding a finite `x` to `+0` gives `x`, with `-0` becoming `+0`. -/
theorem fadd_zero_left {x : Dbl} (hx : x.isFinite = true) :
    fadd (zero false) x = if x.mag = 0 then zero false else x := by
  have h0 : (zero false).toInt = 0 := by decide
  have hdef : fadd (zero false) x =
      if (zero false).toInt + x.toInt = 0 then zero ((zero false).isNeg && x.isNeg)
      else round (decide ((zero false).toInt + x.toInt < 0))
        ((zero false).toInt + x.toInt).natAbs 1 := by
    cases x <;> simp [isFinite] at hx <;> rfl
  rw [hdef, h0, Int.zero_add]
  by_cases hm : x.mag = 0
  · have : x.toInt = 0 := by unfold toInt; rw [hm]; simp
    rw [if_pos this, if_pos hm]; rfl
  · have : x.toInt ≠ 0 := fun hc => hm (toInt_eq_zero hc)
    rw [if_neg this, if_neg hm, toInt_neg_iff hm, toInt_natAbs]
    have := round_exact x hx 1 (by norm_num)
    rwa [Nat.mul_one] at this

theorem ofInt_one : ofInt 1 = norm false ⟨1022, by decide⟩ ⟨0, by decide⟩ := by decide

theorem ofNat_one : ofNat 1 = norm false ⟨1022, by decide⟩ ⟨0, by decide⟩ := by decide

/-- Dividing a finite `x` by `1.0` gives `x`. -/
theorem fdiv_one {x : Dbl} (hx : x.isFinite = true) :
    fdiv x (norm false ⟨1022, by decide⟩ ⟨0, by decide⟩) = x := by
  have hmag : (norm false ⟨1022, by decide⟩ ⟨0, by decide⟩ : Dbl).mag = 2 ^ 1074 := by
    decide
  have hdef : fdiv x (norm false ⟨1022, by decide⟩ ⟨0, by decide⟩) =
      round (xor x.isNeg false) (x.mag * 2 ^ 1074) (2 ^ 1074) := by
    cases x <;> simp [isFinite] at hx <;>
      (unfold fdiv; simp only [hmag]; rw [if_neg (by norm_num)]; rfl)
  rw [hdef, Bool.xor_false]
  exact round_exact x hx _ (by positivity)

/-- The deviation of a finite `x` from itself is `+0`. -/
theorem fsub_self {x : Dbl} (hx : x.isFinite = true) : fsub x x = zero false := by
  have hneg : (fneg x).toInt = -x.toInt := by
    cases x with
    | nan => simp [isFinite] at hx
    | inf s => simp [isFinite] at hx
    | sub s m => cases s <;> simp [fneg, toInt, isNeg, mag]
    | norm s e f => cases s <;> simp [fneg, toInt, isNeg, mag]
  have hs : (fneg x).isNeg = !x.isNeg := by
    cases x <;> simp [isFinite] at hx <;> rfl
  have hdef : fsub x x =
      if x.toInt + (fneg x).toInt = 0 then zero (x.isNeg && (fneg x).isNeg)
      else round (decide (x.toInt + (fneg x).toInt < 0)) (x.toInt + (fneg x).toInt).natAbs 1 := by
    cases x <;> simp [isFinite] at hx <;> rfl
  rw [hdef, hneg, if_pos (by omega), hs]
  cases x.isNeg <;> rfl

/-- The mean of a single finite observation `x` is `x`, with `-0` becoming `+0`. -/
theorem specMean_single {x : Dbl} (hx : x.isFinite = true) :
    specMean [x] = if x.mag = 0 then zero false else x := by
  show fdiv (fadd (zero false) x) (ofNat 1) = _
  rw [fadd_zero_left hx, ofNat_one]
  split
  · decide
  · exact fdiv_one hx

theorem mean_eval_single (x : Dbl) : (Mean.consume [x]).eval = specMean [x] := by
  show fdiv (fadd (ofInt 0) x) (ofInt (wrapInt32 (0 + 1))) = fdiv (fadd (zero false) x) (ofNat 1)
  have h1 : ofInt 0 = zero false := by decide
  have h2 : ofInt (wrapInt32 (0 + 1)) = ofNat 1 := by decide
  rw [h1, h2]

/-- The squared deviation of a single finite observation from its mean is `+0`. -/
theorem sqDev_single {x : Dbl} (hx : x.isFinite = true) :
    sqDev (specMean [x]) x = zero false := by
  rw [specMean_single hx]
  unfold sqDev
  by_cases hm : x.mag = 0
  · rw [if_pos hm, finite_mag_zero hx hm]
    cases x.isNeg <;> decide
  · rw [if_neg hm, fsub_self hx]
    decide

theorem std_eval_single {x : Dbl} (hx : x.isFinite = true) :
    (Std.consume [x]).eval = zero false := by
  rw [std_eval_eq_specStd, std_consume_vector]
  show fsqrt (fdiv (fadd (zero false) (sqDev (specMean [x]) x)) (ofNat 1)) = zero false
  rw [sqDev_single hx]
  decide

/-! ## The running maximum against the maximum of the sequence -/

theorem mem_filter_notNaN {x : Dbl} {S : List Dbl} :
    x ∈ S.filter (fun y => !y.isNaN) ↔ x ∈ S ∧ x.isNaN = false := by
  simp [List.mem_filter]

/-- The value of `Max.eval()` is the maximum of the initial value and the
observations that are not NaN. -/
theorem max_eval_isMaxOf_cons (S : List Dbl) :
    isMaxOf (Max.consume S).eval (DBL_MIN :: S.filter (fun y => !y.isNaN)) := by
  obtain ⟨i1, i2, i3, i4⟩ := max_fold S Max.ctor rfl
  constructor
  · rcases i4 with h | h
    · exact List.mem_cons.2 (Or.inl h)
    · exact List.mem_cons_of_mem _ (mem_filter_notNaN.2 ⟨h, i1⟩)
  · intro y hy
    rcases List.mem_cons.1 hy with rfl | hy
    · exact (fle_iff _ _).2 ⟨rfl, i1, i2⟩
    · obtain ⟨hyS, hyn⟩ := mem_filter_notNaN.1 hy
      exact (fle_iff _ _).2 ⟨hyn, i1, i3 y hyS hyn⟩

/-- The value of `Max.eval()` is the maximum of the observations that are not
NaN exactly when some observation is at least the initial value. -/
theorem max_eval_isMaxOf_iff (S : List Dbl) :
    isMaxOf (Max.consume S).eval (S.filter (fun y => !y.isNaN)) ↔
      ∃ x ∈ S, fge x DBL_MIN = true := by
  obtain ⟨i1, i2, i3, i4⟩ := max_fold S Max.ctor rfl
  have hmin : DBL_MIN.key = ((2 ^ 52 : Nat) : Int) := by decide
  constructor
  · intro h
    exact ⟨_, (mem_filter_notNaN.1 h.1).1, (fle_iff _ _).2 ⟨rfl, i1, i2⟩⟩
  · rintro ⟨x, hx, hge⟩
    obtain ⟨_, hxn, hxk⟩ := (fle_iff _ _).1 hge
    have hxe := i3 x hx hxn
    constructor
    · rcases i4 with h | h
      · have hk : x.key = DBL_MIN.key := by
          have : (List.foldl Max.update Max.ctor S).m_max.key = DBL_MIN.key := by rw [h]; rfl
          omega
        have hne : x.key ≠ 0 := by rw [hk, hmin]; norm_num
        have hxd : x = DBL_MIN := key_inj hxn (show DBL_MIN.isNaN = false from rfl) hk hne
        show (List.foldl Max.update Max.ctor S).m_max ∈ _
        rw [h]
        show DBL_MIN ∈ _
        rw [← hxd]
        exact mem_filter_notNaN.2 ⟨hx, hxn⟩
      · exact mem_filter_notNaN.2 ⟨h, i1⟩
    · intro y hy
      obtain ⟨hyS, hyn⟩ := mem_filter_notNaN.1 hy
      exact (fle_iff _ _).2 ⟨hyn, i1, i3 y hyS hyn⟩

theorem max_eval_pos (S : List Dbl) : flt (zero false) (Max.consume S).eval = true := by
  obtain ⟨i1, i2, _, _⟩ := max_fold S Max.ctor rfl
  have hmin : DBL_MIN.key = ((2 ^ 52 : Nat) : Int) := by decide
  have hz : (zero false).key = 0 := by decide
  refine (flt_iff _ _).2 ⟨rfl, i1, ?_⟩
  have : Max.ctor.m_max.key = DBL_MIN.key := rfl
  show (zero false).key < (List.foldl Max.update Max.ctor S).m_max.key
  rw [hz]
  have h52 : (0 : Int) < ((2 ^ 52 : Nat) : Int) := by norm_num
  omega

theorem filter_notNaN_eq {S : List Dbl} (h : ∀ x ∈ S, x.isNaN = false) :
    S.filter (fun y => !y.isNaN) = S := by
  apply List.filter_eq_self.2
  intro x hx
  simp [h x hx]

/-! ## Rounding is monotone against doubles -/

theorem pack_mag (neg : Bool) (k e : Nat) (hk : k ≤ 2 ^ 53) (h0 : k < 2 ^ 52 → e = 0)
    (hfin : (pack neg k e).isFinite = true) : (pack neg k e).mag = k * 2 ^ e := by
  unfold pack at hfin ⊢
  by_cases h1 : k < 2 ^ 52
  · rw [dif_pos h1]
    simp only [mag]
    rw [h0 h1, pow_zero, Nat.mul_one]
  · rw [dif_neg h1] at hfin ⊢
    by_cases h2 : k < 2 ^ 53
    · rw [dif_pos h2] at hfin ⊢
      by_cases h3 : e < 2046
      · rw [dif_pos h3]
        show (2 ^ 52 + (k - 2 ^ 52)) * 2 ^ e = k * 2 ^ e
        have hk2 : 2 ^ 52 + (k - 2 ^ 52) = k := by omega
        rw [hk2]
      · rw [dif_neg h3] at hfin
        simp [isFinite] at hfin
    · rw [dif_neg h2] at hfin ⊢
      by_cases h3 : e + 1 < 2046
      · rw [dif_pos h3]
        show (2 ^ 52 + 0) * 2 ^ (e + 1) = k * 2 ^ e
        have hk53 : k = 2 ^ 53 := by omega
        rw [hk53, pow_succ]
        ring
      · rw [dif_neg h3] at hfin
        simp [isFinite] at hfin

theorem pack_inf_or_finite (neg : Bool) (k e : Nat) :
    pack neg k e = inf neg ∨ (pack neg k e).isFinite = true := by
  unfold pack
  split
  · right; rfl
  · split
    · split
      · right; rfl
      · left; rfl
    · split
      · right; rfl
      · left; rfl

/-- A packed significand `k >= 2^52` with exponent `e` overflows only from
`2^2098` units on. -/
theorem pack_finite_of_small (neg : Bool) (k e : Nat) (h : k * 2 ^ e < 2 ^ 2098) :
    (pack neg k e).isFinite = true := by
  unfold pack
  by_cases h1 : k < 2 ^ 52
  · rw [dif_pos h1]; rfl
  · rw [dif_neg h1]
    have hk52 : 2 ^ 52 ≤ k := by omega
    by_cases h2 : k < 2 ^ 53
    · rw [dif_pos h2]
      by_cases h3 : e < 2046
      · rw [dif_pos h3]; rfl
      · exfalso
        have : (2 : Nat) ^ 2046 ≤ 2 ^ e := Nat.pow_le_pow_right (by norm_num) (by omega)
        have h4 : 2 ^ 52 * 2 ^ 2046 ≤ k * 2 ^ e := Nat.mul_le_mul hk52 this
        have h5 : (2 : Nat) ^ 52 * 2 ^ 2046 = 2 ^ 2098 := by rw [← pow_add]
        omega
    · rw [dif_neg h2]
      by_cases h3 : e + 1 < 2046
      · rw [dif_pos h3]; rfl
      · exfalso
        have : (2 : Nat) ^ 2045 ≤ 2 ^ e := Nat.pow_le_pow_right (by norm_num) (by omega)
        have h4 : 2 ^ 53 * 2 ^ 2045 ≤ k * 2 ^ e := Nat.mul_le_mul (by omega) this
        have h5 : (2 : Nat) ^ 53 * 2 ^ 2045 = 2 ^ 2098 := by rw [← pow_add]
        omega

/-- The exponent `round` works at: `0` below `2^53`, else `ilog2 q - 52`. -/
theorem round_eq_pack (neg : Bool) (num den : Nat) (h : ¬ 2 ^ 2100 ≤ num / den) :
    round neg num den
      = pack neg (rne num (den * 2 ^ (if num / den < 2 ^ 53 then 0 else ilog2 (num / den) - 52)))
          (if num / den < 2 ^ 53 then 0 else ilog2 (num / den) - 52) := by
  unfold round
  simp only
  rw [if_neg h]

/-- At the exponent chosen by `round` the rounded significand lies in
`[2^52, 2^53]`, or below `2^52` at exponent `0`. -/
theorem round_significand (num den : Nat) (h : ¬ 2 ^ 2100 ≤ num / den) :
    rne num (den * 2 ^ (if num / den < 2 ^ 53 then 0 else ilog2 (num / den) - 52)) ≤ 2 ^ 53 ∧
    ((if num / den < 2 ^ 53 then 0 else ilog2 (num / den) - 52) ≠ 0 →
      2 ^ 52 ≤ rne num (den * 2 ^ (if num / den < 2 ^ 53 then 0 else ilog2 (num / den) - 52)) ∧
      2 ^ (52 + (if num / den < 2 ^ 53 then 0 else ilog2 (num / den) - 52)) ≤ num / den) := by
  by_cases hq : num / den < 2 ^ 53
  · rw [if_pos hq, pow_zero, Nat.mul_one]
    refine ⟨?_, fun hne => absurd rfl hne⟩
    have := rne_le num den
    omega
  · rw [if_neg hq]
    have hq1 : 1 ≤ num / den := by
      have : (1 : Nat) ≤ 2 ^ 53 := Nat.one_le_two_pow
      omega
    have hq2 : num / den < 2 ^ 4096 := by
      have : (2 : Nat) ^ 2100 ≤ 2 ^ 4096 := Nat.pow_le_pow_right (by norm_num) (by norm_num)
      omega
    obtain ⟨l1, l2⟩ := ilog2_spec _ hq1 hq2
    have hL : 53 ≤ ilog2 (num / den) := by
      by_contra hc
      have : (2 : Nat) ^ (ilog2 (num / den) + 1) ≤ 2 ^ 53 :=
        Nat.pow_le_pow_right (by norm_num) (by omega)
      omega
    generalize ilog2 (num / den) = L at l1 l2 hL
    have hE : 52 + (L - 52) = L := by omega
    have hdiv : num / (den * 2 ^ (L - 52)) = num / den / 2 ^ (L - 52) :=
      (Nat.div_div_eq_div_mul _ _ _).symm
    have hpos : 0 < 2 ^ (L - 52) := Nat.two_pow_pos _
    have hlo : 2 ^ 52 ≤ num / den / 2 ^ (L - 52) := by
      rw [Nat.le_div_iff_mul_le hpos, ← pow_add, hE]; exact l1
    have hhi : num / den / 2 ^ (L - 52) < 2 ^ 53 := by
      rw [Nat.div_lt_iff_lt_mul hpos, ← pow_add]
      have : 53 + (L - 52) = L + 1 := by omega
      rw [this]; exact l2
    have h1 := le_rne num (den * 2 ^ (L - 52))
    have h2 := rne_le num (den * 2 ^ (L - 52))
    rw [hdiv] at h1 h2
    refine ⟨by omega, fun _ => ⟨by omega, ?_⟩⟩
    rw [hE]; exact l1

theorem rne_le_of_le (num D j : Nat) (hD : 0 < D) (h : num ≤ j * D) : rne num D ≤ j := by
  have hq : num / D ≤ j := Nat.div_le_of_le_mul (by rw [Nat.mul_comm]; exact h)
  rcases Nat.lt_or_ge (num / D) j with hlt | hge
  · have := rne_le num D
    omega
  · have hqj : num / D = j := by omega
    have h1 := Nat.div_add_mod num D
    rw [hqj] at h1
    have hr : num % D = 0 := by
      have : D * j = j * D := Nat.mul_comm _ _
      omega
    unfold rne
    simp only [hr, hqj, Nat.mul_zero]
    rw [if_pos hD]

theorem le_rne_of_le (num D j : Nat) (hD : 0 < D) (h : j * D ≤ num) : j ≤ rne num D :=
  le_trans ((Nat.le_div_iff_mul_le hD).2 h) (le_rne num D)

/-- A finite magnitude of at least `2^(52+E)` is a multiple of `2^E`. -/
theorem mag_multiple (d : Dbl) (E : Nat) (h : 2 ^ (52 + E) ≤ d.mag) :
    ∃ j, d.mag = j * 2 ^ E := by
  cases d with
  | nan => simp [mag] at h
  | inf s => simp [mag] at h
  | sub s m =>
    exfalso
    simp only [mag] at h
    have hm := m.isLt
    have : (2 : Nat) ^ 52 ≤ 2 ^ (52 + E) := Nat.pow_le_pow_right (by norm_num) (by omega)
    omega
  | norm s e f =>
    simp only [mag] at h ⊢
    have hf := f.isLt
    have hlt : (2 ^ 52 + f.val) * 2 ^ e.val < 2 ^ (53 + e.val) := by
      rw [pow_add]
      exact Nat.mul_lt_mul_of_pos_right (by omega) (Nat.two_pow_pos _)
    have hE : E ≤ e.val := by
      by_contra hc
      have : (2 : Nat) ^ (53 + e.val) ≤ 2 ^ (52 + E) :=
        Nat.pow_le_pow_right (by norm_num) (by omega)
      omega
    refine ⟨(2 ^ 52 + f.val) * 2 ^ (e.val - E), ?_⟩
    rw [Nat.mul_assoc, ← pow_add]
    congr 2
    omega

/-- Rounding a value that is at most a finite magnitude `d.mag` gives a finite
double of magnitude at most `d.mag`. -/
theorem round_le_of_le (neg : Bool) (num den : Nat) (hden : 0 < den) (d : Dbl)
    (h : num ≤ d.mag * den) :
    (round neg num den).isFinite = true ∧ (round neg num den).mag ≤ d.mag := by
  have hmax := mag_le_max d
  have hmax2 : (2 ^ 53 - 1) * 2 ^ 2045 < 2 ^ 2098 := by norm_num
  have h2100 : (2 : Nat) ^ 2098 ≤ 2 ^ 2100 := Nat.pow_le_pow_right (by norm_num) (by norm_num)
  have hq : num / den ≤ d.mag := Nat.div_le_of_le_mul (by rw [Nat.mul_comm]; exact h)
  have hguard : ¬ 2 ^ 2100 ≤ num / den := by omega
  obtain ⟨hk, hE⟩ := round_significand num den hguard
  rw [round_eq_pack neg num den hguard]
  generalize (if num / den < 2 ^ 53 then 0 else ilog2 (num / den) - 52) = E at hk hE ⊢
  generalize hkdef : rne num (den * 2 ^ E) = k at hk hE ⊢
  have hkM : k * 2 ^ E ≤ d.mag := by
    by_cases hE0 : E = 0
    · subst hE0
      rw [pow_zero, Nat.mul_one] at hkdef ⊢
      rw [← hkdef]
      exact rne_le_of_le num den d.mag hden h
    · obtain ⟨_, hlo⟩ := hE hE0
      obtain ⟨j, hj⟩ := mag_multiple d E (le_trans hlo hq)
      have hjk : k ≤ j := by
        rw [← hkdef]
        refine rne_le_of_le num (den * 2 ^ E) j (Nat.mul_pos hden (Nat.two_pow_pos _)) ?_
        calc num ≤ d.mag * den := h
          _ = j * (den * 2 ^ E) := by rw [hj]; ring
      rw [hj]
      exact Nat.mul_le_mul_right _ hjk
  have hfin : (pack neg k E).isFinite = true := pack_finite_of_small neg k E (by omega)
  refine ⟨hfin, ?_⟩
  rw [pack_mag neg k E hk ?_ hfin]
  · exact hkM
  · intro hk52
    by_contra hE0
    have := (hE hE0).1
    omega

/-- Rounding a value that is at least a finite magnitude `d.mag` gives
infinity or a finite double of magnitude at least `d.mag`. -/
theorem round_ge_of_ge (neg : Bool) (num den : Nat) (hden : 0 < den) (d : Dbl)
    (h : d.mag * den ≤ num) :
    round neg num den = inf neg ∨
      ((round neg num den).isFinite = true ∧ d.mag ≤ (round neg num den).mag) := by
  have hq : d.mag ≤ num / den := (Nat.le_div_iff_mul_le hden).2 h
  by_cases hguard : 2 ^ 2100 ≤ num / den
  · left
    unfold round
    simp only
    rw [if_pos hguard]
  · obtain ⟨hk, hE⟩ := round_significand num den hguard
    rw [round_eq_pack neg num den hguard]
    generalize (if num / den < 2 ^ 53 then 0 else ilog2 (num / den) - 52) = E at hk hE ⊢
    generalize hkdef : rne num (den * 2 ^ E) = k at hk hE ⊢
    rcases pack_inf_or_finite neg k E with hinf | hfin
    · left; exact hinf
    · right
      refine ⟨hfin, ?_⟩
      have hk0 : k < 2 ^ 52 → E = 0 := by
        intro hk52
        by_contra hE0
        have := (hE hE0).1
        omega
      rw [pack_mag neg k E hk hk0 hfin]
      by_cases hE0 : E = 0
      · subst hE0
        rw [pow_zero, Nat.mul_one] at hkdef ⊢
        rw [← hkdef]
        exact le_rne_of_le num den d.mag hden h
      · obtain ⟨hk52, _⟩ := hE hE0
        by_cases hbig : 2 ^ (52 + E) ≤ d.mag
        · obtain ⟨j, hj⟩ := mag_multiple d E hbig
          have hjk : j ≤ k := by
            rw [← hkdef]
            refine le_rne_of_le num (den * 2 ^ E) j (Nat.mul_pos hden (Nat.two_pow_pos _)) ?_
            calc j * (den * 2 ^ E) = d.mag * den := by rw [hj]; ring
              _ ≤ num := h
          rw [hj]
          exact Nat.mul_le_mul_right _ hjk
        · have : 2 ^ 52 * 2 ^ E ≤ k * 2 ^ E := Nat.mul_le_mul_right _ hk52
          rw [← pow_add] at this
          omega

theorem key_round_finite (neg : Bool) (num den : Nat)
    (h : (round neg num den).isFinite = true) :
    (round neg num den).key
      = if neg then -((round neg num den).mag : Int) else ((round neg num den).mag : Int) := by
  rw [key_of_finite h]
  unfold toInt
  rw [round_isNeg]

theorem key_finite (d : Dbl) (h : d.isFinite = true) :
    d.key = if d.isNeg then -(d.mag : Int) else (d.mag : Int) := by
  rw [key_of_finite h]; rfl

theorem round_inf_or_finite (neg : Bool) (num den : Nat) :
    round neg num den = inf neg ∨ (round neg num den).isFinite = true := by
  unfold round
  simp only
  split
  · left; rfl
  · exact pack_inf_or_finite _ _ _

/-- Rounding is monotone: a signed value `± num / den` that is at most the
value of a finite double `d` rounds to a double that is at most `d`. -/
theorem round_key_le (neg : Bool) (num den : Nat) (hden : 0 < den) (d : Dbl)
    (hd : d.isFinite = true)
    (h : (if neg then -(num : Int) else (num : Int)) ≤ d.toInt * den) :
    (round neg num den).key ≤ d.key := by
  have hdk := key_finite d hd
  have hb := key_finite_bounds hd
  unfold toInt at h
  cases neg
  · simp only [Bool.false_eq_true, if_false] at h
    cases hs : d.isNeg
    · rw [hs] at h hdk
      simp only [Bool.false_eq_true, if_false] at h hdk
      have h' : num ≤ d.mag * den := by exact_mod_cast h
      obtain ⟨hf, hm⟩ := round_le_of_le false num den hden d h'
      rw [key_round_finite false num den hf, hdk]
      simp only [Bool.false_eq_true, if_false]
      exact_mod_cast hm
    · rw [hs] at h hdk
      simp only [if_true, neg_mul] at h hdk
      have hP : (0 : Int) ≤ (d.mag : Int) * den := by positivity
      have hnum : num = 0 := by omega
      have hP0 : d.mag * den = 0 := by
        have : ((d.mag * den : Nat) : Int) = 0 := by push_cast; omega
        exact_mod_cast this
      have hmag : d.mag = 0 := by
        rcases Nat.eq_zero_or_pos d.mag with h0 | hpos
        · exact h0
        · exact absurd hP0 (Nat.ne_of_gt (Nat.mul_pos hpos hden))
      obtain ⟨hf, hm⟩ := round_le_of_le false num den hden d (by rw [hnum]; exact Nat.zero_le _)
      rw [key_round_finite false num den hf, hdk]
      simp only [Bool.false_eq_true, if_false]
      omega
  · simp only [if_true] at h
    cases hs : d.isNeg
    · rw [hs] at hdk
      simp only [Bool.false_eq_true, if_false] at hdk
      rcases round_inf_or_finite true num den with hinf | hf
      · rw [hinf, key_inf_true, hdk]; omega
      · rw [key_round_finite true num den hf, hdk]
        simp only [if_true]
        omega
    · rw [hs] at h hdk
      simp only [if_true, neg_mul] at h hdk
      have h' : d.mag * den ≤ num := by
        have : ((d.mag * den : Nat) : Int) ≤ (num : Int) := by push_cast; omega
        exact_mod_cast this
      rcases round_ge_of_ge true num den hden d h' with hinf | ⟨hf, hm⟩
      · rw [hinf, key_inf_true]; omega
      · rw [key_round_finite true num den hf, hdk]
        simp only [if_true]
        omega

/-- Rounding is monotone: a signed value `± num / den` that is at least the
value of a finite double `d` rounds to a double that is at least `d`. -/
theorem round_key_ge (neg : Bool) (num den : Nat) (hden : 0 < den) (d : Dbl)
    (hd : d.isFinite = true)
    (h : d.toInt * den ≤ (if neg then -(num : Int) else (num : Int))) :
    d.key ≤ (round neg num den).key := by
  have hdk := key_finite d hd
  have hb := key_finite_bounds hd
  unfold toInt at h
  cases neg
  · simp only [Bool.false_eq_true, if_false] at h
    cases hs : d.isNeg
    · rw [hs] at h hdk
      simp only [Bool.false_eq_true, if_false] at h hdk
      have h' : d.mag * den ≤ num := by exact_mod_cast h
      rcases round_ge_of_ge false num den hden d h' with hinf | ⟨hf, hm⟩
      · rw [hinf, key_inf_false]; omega
      · rw [key_round_finite false num den hf, hdk]
        simp only [Bool.false_eq_true, if_false]
        exact_mod_cast hm
    · rw [hs] at hdk
      simp only [if_true] at hdk
      rcases round_inf_or_finite false num den with hinf | hf
      · rw [hinf, key_inf_false, hdk]; omega
      · rw [key_round_finite false num den hf, hdk]
        simp only [Bool.false_eq_true, if_false]
        omega
  · simp only [if_true] at h
    cases hs : d.isNeg
    · rw [hs] at h hdk
      simp only [Bool.false_eq_true, if_false] at h hdk
      have hP : (0 : Int) ≤ (d.mag : Int) * den := by positivity
      have hnum : num = 0 := by omega
      have hP0 : d.mag * den = 0 := by
        have : ((d.mag * den : Nat) : Int) = 0 := by push_cast; omega
        exact_mod_cast this
      have hmag : d.mag = 0 := by
        rcases Nat.eq_zero_or_pos d.mag with h0 | hpos
        · exact h0
        · exact absurd hP0 (Nat.ne_of_gt (Nat.mul_pos hpos hden))
      obtain ⟨hf, hm⟩ := round_le_of_le true num den hden d (by rw [hnum]; exact Nat.zero_le _)
      rw [key_round_finite true num den hf, hdk]
      simp only [if_true]
      omega
    · rw [hs] at h hdk
      simp only [if_true, neg_mul] at h hdk
      have h' : num ≤ d.mag * den := by
        have : (num : Int) ≤ ((d.mag * den : Nat) : Int) := by push_cast; omega
        exact_mod_cast this
      obtain ⟨hf, hm⟩ := round_le_of_le true num den hden d h'
      rw [key_round_finite true num den hf, hdk]
      simp only [if_true]
      omega

/-! ## The mean between the extremes -/

/-- Every integer `1 ≤ n < 2^53` is a double. -/
theorem exists_dbl_of_nat (n : Nat) (h1 : 1 ≤ n) (h2 : n < 2 ^ 53) :
    ∃ d : Dbl, d.isFinite = true ∧ d.isNeg = false ∧ d.mag = n * 2 ^ 1074 := by
  have hlo : 2 ^ Nat.log 2 n ≤ n := Nat.pow_log_le_self 2 (by omega)
  have hhi : n < 2 ^ (Nat.log 2 n + 1) := Nat.lt_pow_succ_log_self (by norm_num) n
  have hL : Nat.log 2 n ≤ 52 := by
    by_contra hc
    have : (2 : Nat) ^ 53 ≤ 2 ^ Nat.log 2 n := Nat.pow_le_pow_right (by norm_num) (by omega)
    omega
  generalize Nat.log 2 n = L at hlo hhi hL
  have hm1 : 2 ^ 52 ≤ n * 2 ^ (52 - L) := by
    calc 2 ^ 52 = 2 ^ L * 2 ^ (52 - L) := by rw [← pow_add]; congr 1; omega
      _ ≤ n * 2 ^ (52 - L) := Nat.mul_le_mul_right _ hlo
  have hm2 : n * 2 ^ (52 - L) < 2 ^ 53 := by
    calc n * 2 ^ (52 - L) < 2 ^ (L + 1) * 2 ^ (52 - L) :=
          Nat.mul_lt_mul_of_pos_right hhi (Nat.two_pow_pos _)
      _ = 2 ^ 53 := by rw [← pow_add]; congr 1; omega
  refine ⟨norm false ⟨1022 + L, by omega⟩ ⟨n * 2 ^ (52 - L) - 2 ^ 52, by omega⟩,
    rfl, rfl, ?_⟩
  show (2 ^ 52 + (n * 2 ^ (52 - L) - 2 ^ 52)) * 2 ^ (1022 + L) = n * 2 ^ 1074
  have : 2 ^ 52 + (n * 2 ^ (52 - L) - 2 ^ 52) = n * 2 ^ (52 - L) := by omega
  have he : 52 - L + (1022 + L) = 1074 := by omega
  rw [this, Nat.mul_assoc, ← pow_add, he]

/-- A size `1 ≤ n < 2^53` converts to `double` exactly. -/
theorem ofNat_exact (n : Nat) (h1 : 1 ≤ n) (h2 : n < 2 ^ 53) :
    (ofNat n).isFinite = true ∧ (ofNat n).isNeg = false ∧ (ofNat n).mag = n * 2 ^ 1074 := by
  obtain ⟨d, hf, hs, hm⟩ := exists_dbl_of_nat n h1 h2
  have h := round_exact d hf 1 (by norm_num)
  rw [hs, hm, Nat.mul_one] at h
  have : ofNat n = d := h
  rw [this]
  exact ⟨hf, hs, hm⟩

/-- Division of a finite double by a positive finite double is one rounding of
the quotient. -/
theorem fdiv_finite_pos {a c : Dbl} (ha : a.isFinite = true) (hc : c.isFinite = true)
    (hs : c.isNeg = false) (hm : c.mag ≠ 0) :
    fdiv a c = round a.isNeg (a.mag * 2 ^ 1074) c.mag := by
  cases a <;> cases c <;> simp [isFinite] at ha hc <;>
    (unfold fdiv; simp only; rw [if_neg hm, hs, Bool.xor_false])

theorem list_sum_bounds (L : List Int) (a b : Int) (h : ∀ x ∈ L, a ≤ x ∧ x ≤ b) :
    (L.length : Int) * a ≤ L.sum ∧ L.sum ≤ (L.length : Int) * b := by
  induction L with
  | nil => simp
  | cons x xs ih =>
    obtain ⟨i1, i2⟩ := ih (fun y hy => h y (List.mem_cons_of_mem _ hy))
    obtain ⟨h1, h2⟩ := h x (List.mem_cons_self _ _)
    simp only [List.length_cons, List.sum_cons]
    push_cast
    constructor
    · have : ((xs.length : Int) + 1) * a = (xs.length : Int) * a + a := by ring
      omega
    · have : ((xs.length : Int) + 1) * b = (xs.length : Int) * b + b := by ring
      omega

theorem sumExact_finite (S : List Dbl) : ∀ acc : Dbl, sumExact acc S = true →
    ∀ x ∈ S, x.isFinite = true := by
  induction S with
  | nil => intro acc _ x hx; simp at hx
  | cons y ys ih =>
    intro acc h x hx
    simp only [sumExact, Bool.and_eq_true] at h
    rcases List.mem_cons.1 hx with rfl | hx
    · exact ((addExact_iff acc x).1 h.1).2.1
    · exact ih _ h.2 x hx

/-- The quotient `sum / n` of a finite sum by a size `1 ≤ n < 2^53` lies
between any two finite doubles `lo` and `hi` with `n * lo ≤ sum ≤ n * hi`. -/
theorem fdiv_between {sum lo hi : Dbl} (n : Nat) (h1 : 1 ≤ n) (h2 : n < 2 ^ 53)
    (hsum : sum.isFinite = true) (hlo : lo.isFinite = true) (hhi : hi.isFinite = true)
    (hl : (n : Int) * lo.toInt ≤ sum.toInt) (hh : sum.toInt ≤ (n : Int) * hi.toInt) :
    fle lo (fdiv sum (ofNat n)) = true ∧ fle (fdiv sum (ofNat n)) hi = true := by
  obtain ⟨cf, cs, cm⟩ := ofNat_exact n h1 h2
  have hpos : 0 < n * 2 ^ 1074 := Nat.mul_pos (by omega) (Nat.two_pow_pos _)
  have hcm : (ofNat n).mag ≠ 0 := by rw [cm]; omega
  rw [fdiv_finite_pos hsum cf cs hcm, cm]
  have hnum : (if sum.isNeg then -((sum.mag * 2 ^ 1074 : Nat) : Int)
      else ((sum.mag * 2 ^ 1074 : Nat) : Int)) = sum.toInt * ((2 ^ 1074 : Nat) : Int) := by
    unfold toInt
    split <;> push_cast <;> ring
  have hP : (0 : Int) ≤ ((2 ^ 1074 : Nat) : Int) := Int.ofNat_nonneg _
  constructor
  · refine (fle_iff _ _).2 ⟨finite_isNaN hlo, round_isNaN _ _ _, ?_⟩
    refine round_key_ge _ _ _ hpos lo hlo ?_
    rw [hnum]
    have : lo.toInt * ((n * 2 ^ 1074 : Nat) : Int)
        = ((n : Int) * lo.toInt) * ((2 ^ 1074 : Nat) : Int) := by push_cast; ring
    rw [this]
    exact mul_le_mul_of_nonneg_right hl hP
  · refine (fle_iff _ _).2 ⟨round_isNaN _ _ _, finite_isNaN hhi, ?_⟩
    refine round_key_le _ _ _ hpos hi hhi ?_
    rw [hnum]
    have : hi.toInt * ((n * 2 ^ 1074 : Nat) : Int)
        = ((n : Int) * hi.toInt) * ((2 ^ 1074 : Nat) : Int) := by push_cast; ring
    rw [this]
    exact mul_le_mul_of_nonneg_right hh hP

/-! ## When the standard deviation is zero -/

theorem isZero_iff (d : Dbl) : d.isZero = true ↔ d.isFinite = true ∧ d.mag = 0 := by
  simp [Dbl.isZero]

theorem isZero_eq (d : Dbl) (h : d.isZero = true) : d = zero d.isNeg :=
  finite_mag_zero ((isZero_iff d).1 h).1 ((isZero_iff d).1 h).2

theorem isZero_of_feq_zero {d : Dbl} (h : feq d (zero false) = true) : d.isZero = true := by
  obtain ⟨hn, _, hk⟩ := (feq_iff _ _).1 h
  have hz : (zero false).key = 0 := by decide
  rw [hz] at hk
  have h2100 : (0 : Int) < ((2 ^ 2100 : Nat) : Int) := by positivity
  cases d with
  | nan => simp [isNaN] at hn
  | inf s => cases s <;> simp only [key_inf_false, key_inf_true] at hk <;> omega
  | sub s m =>
    rw [key_of_finite (d := sub s m) rfl] at hk
    exact (isZero_iff _).2 ⟨rfl, toInt_eq_zero hk⟩
  | norm s e f =>
    rw [key_of_finite (d := norm s e f) rfl] at hk
    exact (isZero_iff _).2 ⟨rfl, toInt_eq_zero hk⟩

/-- A value of at least one unit does not round to zero. -/
theorem round_not_zero (neg : Bool) (num den : Nat) (hden : 0 < den) (h : den ≤ num) :
    (round neg num den).isZero = false := by
  have hq : 1 ≤ num / den := (Nat.one_le_div_iff hden).2 h
  rcases round_ge_of_ge neg num den hden (sub false ⟨1, by decide⟩)
    (by show 1 * den ≤ num; omega) with hinf | ⟨_, hm⟩
  · rw [hinf]; rfl
  · have h1 : 1 ≤ (round neg num den).mag := hm
    cases hz : (round neg num den).isZero
    · rfl
    · have := ((isZero_iff _).1 hz).2
      omega

theorem isqrt_pos (n : Nat) (h1 : 1 ≤ n) (hlt : n < 2 ^ 4096) : 1 ≤ isqrt n := by
  obtain ⟨_, h2⟩ := isqrt_spec n hlt
  by_contra hc
  have h0 : isqrt n = 0 := by omega
  rw [h0] at h2
  omega

/-- The square root of a double is zero only if the double is. -/
theorem isZero_of_fsqrt {a : Dbl} (h : (fsqrt a).isZero = true) : a.isZero = true := by
  have hm := mag_le_max a
  have hmax2 : (2 ^ 53 - 1) * 2 ^ 2045 < 2 ^ 2098 := by norm_num
  have key : ∀ b : Dbl, b.isFinite = true → b.mag ≠ 0 → b.mag < 2 ^ 2098 →
      (if b.isNeg then nan else round false (2 * isqrt (b.mag * 2 ^ 1074)
        + (if isqrt (b.mag * 2 ^ 1074) * isqrt (b.mag * 2 ^ 1074) = b.mag * 2 ^ 1074
            then 0 else 1)) 2).isZero = false := by
    intro b _ hb0 hb
    split
    · rfl
    · have hn : b.mag * 2 ^ 1074 < 2 ^ 4096 := by
        calc b.mag * 2 ^ 1074 < 2 ^ 2098 * 2 ^ 1074 :=
              Nat.mul_lt_mul_of_pos_right hb (Nat.two_pow_pos _)
          _ = 2 ^ 3172 := by rw [← pow_add]
          _ ≤ 2 ^ 4096 := Nat.pow_le_pow_right (by norm_num) (by norm_num)
      have hn1 : 1 ≤ b.mag * 2 ^ 1074 := Nat.mul_pos (by omega) (Nat.two_pow_pos _)
      have hs := isqrt_pos _ hn1 hn
      exact round_not_zero _ _ _ (by norm_num) (by omega)
  cases a with
  | nan => simp [fsqrt, Dbl.isZero, isFinite] at h
  | inf s => cases s <;> simp [fsqrt, Dbl.isZero, isFinite] at h
  | sub s m =>
    by_cases h0 : (sub s m).mag = 0
    · exact (isZero_iff _).2 ⟨rfl, h0⟩
    · have := key (sub s m) rfl h0 (by omega)
      unfold fsqrt at h
      simp only at h
      rw [if_neg h0, this] at h
      exact absurd h (by simp)
  | norm s e f =>
    by_cases h0 : (norm s e f).mag = 0
    · exact (isZero_iff _).2 ⟨rfl, h0⟩
    · have := key (norm s e f) rfl h0 (by omega)
      unfold fsqrt at h
      simp only at h
      rw [if_neg h0, this] at h
      exact absurd h (by simp)

theorem fadd_fin_fin_eq {a b : Dbl} (ha : a.isFinite = true) (hb : b.isFinite = true) :
    fadd a b = if a.toInt + b.toInt = 0 then zero (a.isNeg && b.isNeg)
      else round (decide (a.toInt + b.toInt < 0)) (a.toInt + b.toInt).natAbs 1 := by
  cases a <;> cases b <;> simp [isFinite] at ha hb <;> rfl

theorem isZero_zero (s : Bool) : (zero s).isZero = true := by cases s <;> rfl

/-- A sum of two finite doubles is zero only if the two values cancel. -/
theorem toInt_of_fadd_isZero {a b : Dbl} (ha : a.isFinite = true) (hb : b.isFinite = true)
    (h : (fadd a b).isZero = true) : a.toInt + b.toInt = 0 := by
  rw [fadd_fin_fin_eq ha hb] at h
  by_contra hne
  rw [if_neg hne, round_not_zero _ _ _ (by norm_num) (by omega)] at h
  exact absurd h (by simp)

theorem nonneg_cases {a : Dbl} (h : NonNeg a) : a = inf false ∨ a.isFinite = true := by
  obtain ⟨h1, h2⟩ := h
  cases a with
  | nan => simp [isNaN] at h1
  | inf s => simp only [isNeg] at h2; subst h2; left; rfl
  | sub s m => right; rfl
  | norm s e f => right; rfl

/-- A sum of two non-negative doubles is zero only if both are. -/
theorem isZero_of_fadd_nonneg {a b : Dbl} (ha : NonNeg a) (hb : NonNeg b)
    (h : (fadd a b).isZero = true) : a.isZero = true ∧ b.isZero = true := by
  rcases nonneg_cases ha with rfl | fa
  · have hr : (fadd (inf false) b).isZero = false := by
      cases b with
      | nan => rfl
      | inf t => cases t <;> rfl
      | sub t m => rfl
      | norm t e f => rfl
    rw [hr] at h; exact absurd h (by simp)
  · rcases nonneg_cases hb with rfl | fb
    · have hr : (fadd a (inf false)).isZero = false := by
        cases a <;> simp [isFinite] at fa <;> rfl
      rw [hr] at h; exact absurd h (by simp)
    · have hz := toInt_of_fadd_isZero fa fb h
      rw [toInt_nonneg ha.2, toInt_nonneg hb.2] at hz
      exact ⟨(isZero_iff _).2 ⟨fa, by omega⟩, (isZero_iff _).2 ⟨fb, by omega⟩⟩

theorem isZero_of_foldl_nonneg (T : List Dbl) (hT : ∀ t ∈ T, NonNeg t) :
    ∀ acc : Dbl, NonNeg acc → (T.foldl fadd acc).isZero = true →
      acc.isZero = true ∧ ∀ t ∈ T, t.isZero = true := by
  induction T with
  | nil => intro acc _ h; exact ⟨h, fun t ht => by simp at ht⟩
  | cons x xs ih =>
    intro acc hacc h
    simp only [List.foldl_cons] at h
    have hx := hT x (List.mem_cons_self _ _)
    obtain ⟨i1, i2⟩ := ih (fun t ht => hT t (List.mem_cons_of_mem _ ht)) _
      (fadd_nonneg hacc hx) h
    obtain ⟨j1, j2⟩ := isZero_of_fadd_nonneg hacc hx i1
    refine ⟨j1, fun t ht => ?_⟩
    rcases List.mem_cons.1 ht with rfl | ht
    · exact j2
    · exact i2 t ht

theorem fneg_toInt {m : Dbl} (hm : m.isFinite = true) : (fneg m).toInt = -m.toInt := by
  cases m with
  | nan => simp [isFinite] at hm
  | inf s => simp [isFinite] at hm
  | sub s m => cases s <;> simp [fneg, toInt, isNeg, mag]
  | norm s e f => cases s <;> simp [fneg, toInt, isNeg, mag]

theorem fneg_isFinite {m : Dbl} (hm : m.isFinite = true) : (fneg m).isFinite = true := by
  cases m <;> simp [isFinite] at hm <;> rfl

/-- The deviation of a finite `y` from `m` is zero only if `y == m`. -/
theorem key_eq_of_fsub_isZero {y m : Dbl} (hy : y.isFinite = true)
    (h : (fsub y m).isZero = true) : m.isFinite = true ∧ y.key = m.key := by
  have hmf : m.isFinite = true := by
    cases m with
    | nan =>
      cases y <;> simp [isFinite] at hy <;>
        simp [fsub, fneg, fadd, Dbl.isZero, isFinite] at h
    | inf s =>
      cases y <;> simp [isFinite] at hy <;>
        simp [fsub, fneg, fadd, Dbl.isZero, isFinite] at h
    | sub s m => rfl
    | norm s e f => rfl
  refine ⟨hmf, ?_⟩
  have hz := toInt_of_fadd_isZero hy (fneg_isFinite hmf) h
  rw [fneg_toInt hmf] at hz
  rw [key_of_finite hy, key_of_finite hmf]
  omega

/-- The deviation of a finite `y` from a finite `m == y` is zero. -/
theorem fsub_isZero_of_key_eq {y m : Dbl} (hy : y.isFinite = true) (hm : m.isFinite = true)
    (h : y.key = m.key) : (fsub y m).isZero = true := by
  rw [key_of_finite hy, key_of_finite hm] at h
  unfold fsub
  rw [fadd_fin_fin_eq hy (fneg_isFinite hm), fneg_toInt hm, if_pos (by omega)]
  exact isZero_zero _

theorem fmul_self_zero {d : Dbl} (h : d.isZero = true) : fmul d d = zero false := by
  rw [isZero_eq d h]
  cases d.isNeg <;> decide

theorem foldl_fadd_zeros (T : List Dbl) (hT : ∀ t ∈ T, t = zero false) :
    T.foldl fadd (zero false) = zero false := by
  induction T with
  | nil => rfl
  | cons x xs ih =>
    rw [List.foldl_cons, hT x (List.mem_cons_self _ _)]
    have : fadd (zero false) (zero false) = zero false := by decide
    rw [this]
    exact ih (fun t ht => hT t (List.mem_cons_of_mem _ ht))

theorem fdiv_zero_norm (e : Fin 2046) (f : Fin (2 ^ 52)) :
    fdiv (zero false) (norm false e f) = zero false := by
  have hm : (norm false e f).mag ≠ 0 := by have := mag_norm_ge false e f; omega
  rw [fdiv_finite_pos (a := zero false) (c := norm false e f) rfl rfl rfl hm]
  have h := round_exact (zero false) rfl (norm false e f).mag (by omega)
  have hz : (zero false).mag = 0 := rfl
  have hs : (zero false).isNeg = false := rfl
  rw [hz, hs, Nat.zero_mul] at h ⊢
  exact h

theorem finite_of_feq {y x : Dbl} (hx : x.isFinite = true) (h : feq y x = true) :
    y.isFinite = true ∧ y.key = x.key := by
  obtain ⟨hn, _, hk⟩ := (feq_iff _ _).1 h
  have hb := key_finite_bounds hx
  refine ⟨?_, hk⟩
  cases y with
  | nan => simp [isNaN] at hn
  | inf s => cases s <;> simp only [key_inf_false, key_inf_true] at hk <;> omega
  | sub s m => rfl
  | norm s e f => rfl

/-- `Std.eval()` is `+0` when every observation equals the computed mean. -/
theorem specStd_zero_of_eq_mean (S : List Dbl) (hne : S ≠ []) (hlen : S.length < 2 ^ 64)
    (hm : (specMean S).isFinite = true)
    (h : ∀ y ∈ S, y.isFinite = true ∧ y.key = (specMean S).key) : specStd S = zero false := by
  have hpos : 1 ≤ S.length := by
    cases S with
    | nil => exact absurd rfl hne
    | cons x xs => simp
  obtain ⟨e, f, hn⟩ := ofNat_pos S.length hpos hlen
  have hsum : specSum (S.map (sqDev (specMean S))) = zero false := by
    refine foldl_fadd_zeros _ ?_
    intro t ht
    obtain ⟨y, hy, rfl⟩ := List.mem_map.1 ht
    exact fmul_self_zero (fsub_isZero_of_key_eq (h y hy).1 hm (h y hy).2)
  unfold specStd
  rw [hsum, hn, fdiv_zero_norm]
  rfl

/-- When `Std.eval()` is zero and nothing underflowed, every observation equals
the computed mean. -/
theorem eq_mean_of_specStd_zero (S : List Dbl) (hne : S ≠ []) (hlen : S.length < 2 ^ 64)
    (hfin : ∀ y ∈ S, y.isFinite = true) (hno : stdNoUnderflow S)
    (hz : (specStd S).isZero = true) :
    ∀ y ∈ S, y.key = (specMean S).key := by
  have hpos : 1 ≤ S.length := by
    cases S with
    | nil => exact absurd rfl hne
    | cons x xs => simp
  obtain ⟨e, f, hn⟩ := ofNat_pos S.length hpos hlen
  have hmean : (specMean S).isNaN = false := by
    unfold specMean specSum
    rw [hn]
    exact fdiv_norm_isNaN (foldl_fadd_isNaN S hfin (zero false) rfl) e f
  have h1 := hno.2 (isZero_of_fsqrt hz)
  have hsq : ∀ t ∈ S.map (sqDev (specMean S)), NonNeg t := by
    intro t ht
    obtain ⟨y, hy, rfl⟩ := List.mem_map.1 ht
    exact fmul_self_nonneg (fsub_finite_isNaN (hfin y hy) hmean)
  have h2 := (isZero_of_foldl_nonneg _ hsq (zero false) ⟨rfl, rfl⟩ h1).2
  intro y hy
  have h3 := hno.1 y hy (h2 _ (List.mem_map.2 ⟨y, hy, rfl⟩))
  exact (key_eq_of_fsub_isZero (hfin y hy) h3).2

/-! ## The sequence `1, 0, 0, ...` of `2^31` observations -/

theorem min_fold_stuck (S : List Dbl) (m : Min) (h : ∀ x ∈ S, flt x m.m_min = false) :
    S.foldl Min.update m = m := by
  induction S with
  | nil => rfl
  | cons y ys ih =>
    have hy : flt y m.m_min = false := h y (List.mem_cons_self _ _)
    have hu : m.update y = m := by unfold Min.update; simp [hy]
    simp only [List.foldl_cons, hu]
    exact ih (fun x hx => h x (List.mem_cons_of_mem _ hx))

/-- After `2^31` observations `1, 0, 0, ...` the counter has wrapped and
`Mean.eval()` is `-2^-31`. -/
theorem mean_eval_one_zeros :
    (Mean.consume (ofInt 1 :: List.replicate (2 ^ 31 - 1) (zero false))).eval
      = ofRat true 1 (2 ^ 31) := by
  have hsum : specSum (ofInt 1 :: List.replicate (2 ^ 31 - 1) (zero false)) = ofInt 1 := by
    unfold specSum
    rw [List.foldl_cons, foldl_fadd_replicate _ _ (by decide)]
    decide
  have hlen : (ofInt 1 :: List.replicate (2 ^ 31 - 1) (zero false)).length = 2 ^ 31 := by
    rw [List.length_cons, List.length_replicate]
    decide
  unfold Mean.eval
  rw [mean_consume_sum, mean_consume_cnt, hsum, hlen]
  decide

/-- After the observations `1, 0, 0, ...` (at least one `0`) `Min.eval()` is `0`. -/
theorem min_eval_one_zeros (n : Nat) :
    (Min.consume (ofInt 1 :: List.replicate (n + 1) (zero false))).eval = zero false := by
  show (List.foldl Min.update ((Min.ctor.update (ofInt 1)).update (zero false))
    (List.replicate n (zero false))).m_min = zero false
  have h1 : (Min.ctor.update (ofInt 1)).update (zero false) = ⟨zero false⟩ := by decide
  rw [h1, min_fold_stuck]
  intro x hx
  rw [List.eq_of_mem_replicate hx]
  decide

/-! ## The claims -/

/-- C1, as stated, fails: after the single observation `+infinity` the value
of `Min.eval()` is `DBL_MAX`, which is not the minimum of the sequence. -/
theorem min_eval_counterexample :
    [inf false] ≠ [] ∧ (Min.consume [inf false]).eval = DBL_MAX ∧
      isMinOf (inf false) [inf false] ∧ ¬ isMinOf (Min.consume [inf false]).eval [inf false] := by
  decide

/-- C1, amended: for every sequence `S` of observations none of which is NaN
and at least one of which is `<= DBL_MAX` (so `S` is non-empty and not all
`+infinity`), after a fresh `Min` consumes `S` in order `Min.eval()` is the
minimum element of `S`. -/
theorem min_eval_is_minimum (S : List Dbl) (hnan : ∀ x ∈ S, x.isNaN = false)
    (hfin : ∃ x ∈ S, fle x DBL_MAX = true) : isMinOf (Min.consume S).eval S := by
  obtain ⟨i1, i2, i3, i4⟩ := min_fold S Min.ctor rfl
  obtain ⟨x0, hx0, hle⟩ := hfin
  have hx0k := ((fle_iff _ _).1 hle).2.2
  refine ⟨?_, fun x hx => (fle_iff _ _).2 ⟨i1, hnan x hx, i3 x hx (hnan x hx)⟩⟩
  rcases i4 with h | h
  · have hk : x0.key = DBL_MAX.key := by
      have h1 := i3 x0 hx0 (hnan x0 hx0)
      have h2 : (List.foldl Min.update Min.ctor S).m_min.key = DBL_MAX.key := by rw [h]; rfl
      have h3 : x0.key ≤ DBL_MAX.key := hx0k
      omega
    have hne : x0.key ≠ 0 := by
      rw [hk, DBL_MAX_key]; norm_num
    have : x0 = DBL_MAX := key_inj (hnan x0 hx0) rfl hk hne
    show (List.foldl Min.update Min.ctor S).m_min ∈ S
    rw [h]
    show DBL_MAX ∈ S
    rw [← this]; exact hx0
  · exact h

/-- Witness of C1 amended at `[3, 1, 4, 1, 5]`. -/
theorem min_eval_is_minimum_witness :
    isMinOf (Min.consume [ofInt 3, ofInt 1, ofInt 4, ofInt 1, ofInt 5]).eval
      [ofInt 3, ofInt 1, ofInt 4, ofInt 1, ofInt 5] :=
  min_eval_is_minimum _ (by decide) (by decide)

/-- C2: on `[-5, -2, -9]` the maximum element is `-2`, but `Max.eval()` is
`DBL_MIN`, the initial value, which does not even occur in the sequence. -/
theorem max_eval_negative_inputs :
    isMaxOf (ofInt (-2)) [ofInt (-5), ofInt (-2), ofInt (-9)] ∧
      (Max.consume [ofInt (-5), ofInt (-2), ofInt (-9)]).eval = DBL_MIN ∧
      ¬ isMaxOf (Max.consume [ofInt (-5), ofInt (-2), ofInt (-9)]).eval
          [ofInt (-5), ofInt (-2), ofInt (-9)] := by
  decide

/-- C3, as stated, fails: the sequence `1, 0, 0, ...` of `2^31` observations has
sum `1` and `sum / len = 2^-31`, but the `int` counter has wrapped to `-2^31`
and `Mean.eval()` is `-2^-31`. -/
theorem mean_eval_counterexample :
    ofInt 1 :: List.replicate (2 ^ 31 - 1) (zero false) ≠ [] ∧
    (Mean.consume (ofInt 1 :: List.replicate (2 ^ 31 - 1) (zero false))).eval
      = ofRat true 1 (2 ^ 31) ∧
    specMean (ofInt 1 :: List.replicate (2 ^ 31 - 1) (zero false)) = ofRat false 1 (2 ^ 31) ∧
    (Mean.consume (ofInt 1 :: List.replicate (2 ^ 31 - 1) (zero false))).eval
      ≠ specMean (ofInt 1 :: List.replicate (2 ^ 31 - 1) (zero false)) := by
  have hsum : specSum (ofInt 1 :: List.replicate (2 ^ 31 - 1) (zero false)) = ofInt 1 := by
    unfold specSum
    rw [List.foldl_cons, foldl_fadd_replicate _ _ (by decide)]
    decide
  have hlen : (ofInt 1 :: List.replicate (2 ^ 31 - 1) (zero false)).length = 2 ^ 31 := by
    rw [List.length_cons, List.length_replicate]
    decide
  have h1 : (Mean.consume (ofInt 1 :: List.replicate (2 ^ 31 - 1) (zero false))).eval
      = ofRat true 1 (2 ^ 31) := by
    unfold Mean.eval
    rw [mean_consume_sum, mean_consume_cnt, hsum, hlen]
    decide
  have h2 : specMean (ofInt 1 :: List.replicate (2 ^ 31 - 1) (zero false))
      = ofRat false 1 (2 ^ 31) := by
    unfold specMean
    rw [hsum, hlen]
    decide
  refine ⟨List.cons_ne_nil _ _, h1, h2, ?_⟩
  rw [h1, h2]
  decide

/-- C3, amended: for every sequence `S` of at most `2^31 - 1` observations
(in particular every non-empty one), after a fresh `Mean` consumes `S` in order
`Mean.eval()` equals `sum(S) / len(S)`, the sum (left to right from `0`) and
the quotient being those of `double` arithmetic. -/
theorem mean_eval_eq_sum_div_len (S : List Dbl) (hlen : S.length < 2 ^ 31) :
    (Mean.consume S).eval = fdiv (specSum S) (ofNat S.length) := by
  unfold Mean.eval
  rw [mean_consume_sum, mean_consume_cnt,
    wrapInt32_of_range _ (Int.ofNat_nonneg _) (by exact_mod_cast hlen), ofInt_natCast]

/-- Witness of C3 amended at `[3, 1, 4, 1, 5]`. -/
theorem mean_eval_eq_sum_div_len_witness :
    (Mean.consume [ofInt 3, ofInt 1, ofInt 4, ofInt 1, ofInt 5]).eval
      = fdiv (specSum [ofInt 3, ofInt 1, ofInt 4, ofInt 1, ofInt 5]) (ofNat 5) :=
  mean_eval_eq_sum_div_len [ofInt 3, ofInt 1, ofInt 4, ofInt 1, ofInt 5] (by decide)

/-- C4: for every sequence `S` (in particular every non-empty one), after a
fresh `Std` consumes `S` in order `Std.eval()` equals the population standard
deviation `sqrt((sum over x in S of (x - mean(S))^2) / len(S))`, with
`mean(S) = sum(S) / len(S)` and divisor `len(S)`, all in `double` arithmetic. -/
theorem std_eval_eq_population_std (S : List Dbl) :
    (Std.consume S).eval
      = fsqrt (fdiv (specSum (S.map (fun x =>
          fmul (fsub x (fdiv (specSum S) (ofNat S.length)))
            (fsub x (fdiv (specSum S) (ofNat S.length)))))) (ofNat S.length)) := by
  rw [std_eval_eq_specStd, std_consume_vector]
  rfl

/-- C5, as stated, fails: after the single observation `+infinity` the mean is
`+infinity`, the deviation `inf - inf` is NaN and `Std.eval()` is NaN, which is
not `>= 0`. -/
theorem std_eval_nonneg_counterexample :
    [inf false] ≠ [] ∧ (Std.consume [inf false]).eval = nan ∧
      fge (Std.consume [inf false]).eval (zero false) = false := by
  decide

/-- C5, amended: for every non-empty sequence `S` of finite observations
(shorter than `2^64`, the range of `size_t`), `Std.eval()` after consuming `S`
is greater than or equal to 0. -/
theorem std_eval_nonneg (S : List Dbl) (hne : S ≠ []) (hfin : ∀ x ∈ S, x.isFinite = true)
    (hlen : S.length < 2 ^ 64) : fge (Std.consume S).eval (zero false) = true := by
  have hpos : 1 ≤ S.length := by
    cases S with
    | nil => exact absurd rfl hne
    | cons x xs => simp
  obtain ⟨e, f, hn⟩ := ofNat_pos S.length hpos hlen
  rw [std_eval_eq_specStd, std_consume_vector]
  apply fge_zero_of_nonneg
  unfold specStd
  rw [hn]
  apply fsqrt_nonneg
  apply fdiv_norm_nonneg
  have hmean : (specMean S).isNaN = false := by
    unfold specMean specSum
    rw [hn]
    exact fdiv_norm_isNaN (foldl_fadd_isNaN S hfin (zero false) rfl) e f
  unfold specSum
  refine foldl_fadd_nonneg _ ?_ _ ⟨rfl, rfl⟩
  intro y hy
  obtain ⟨x, hx, rfl⟩ := List.mem_map.1 hy
  exact fmul_self_nonneg (fsub_finite_isNaN (hfin x hx) hmean)

/-- Witness of C5 amended at `[3, 1, 4, 1, 5]`. -/
theorem std_eval_nonneg_witness :
    fge (Std.consume [ofInt 3, ofInt 1, ofInt 4, ofInt 1, ofInt 5]).eval (zero false) = true :=
  std_eval_nonneg [ofInt 3, ofInt 1, ofInt 4, ofInt 1, ofInt 5] (by decide) (by decide)
    (by decide)

/-- C6, as stated, fails in its general form: in `[DBL_MIN]` no observation is
strictly greater than the initial value of `Max`, and `Max.eval()` is that
initial value, but here it is the maximum of the sequence. -/
theorem max_sentinel_counterexample :
    (∀ x ∈ [DBL_MIN], fgt x DBL_MIN = false) ∧ (Max.consume [DBL_MIN]).eval = DBL_MIN ∧
      isMaxOf (Max.consume [DBL_MIN]).eval [DBL_MIN] := by
  decide

/-- C6, amended: for every sequence `S` in which no observation is strictly
greater than `DBL_MIN`, the initial value of `Max`, the value of `Max.eval()`
after consuming `S` is still `DBL_MIN`, and it is not the maximum of `S` unless
`DBL_MIN` itself occurs in `S`; in particular, when every observation is
negative `Max.eval()` is `DBL_MIN` and is not the maximum of `S`. -/
theorem max_keeps_sentinel :
    (∀ S : List Dbl, (∀ x ∈ S, fgt x DBL_MIN = false) →
      (Max.consume S).eval = DBL_MIN ∧ (DBL_MIN ∉ S → ¬ isMaxOf (Max.consume S).eval S)) ∧
    (∀ S : List Dbl, (∀ x ∈ S, flt x (zero false) = true) →
      (Max.consume S).eval = DBL_MIN ∧ ¬ isMaxOf (Max.consume S).eval S) := by
  have key0 : (zero false).key < DBL_MIN.key := by decide
  have gen : ∀ S : List Dbl, (∀ x ∈ S, fgt x DBL_MIN = false) →
      (Max.consume S).eval = DBL_MIN ∧ (DBL_MIN ∉ S → ¬ isMaxOf (Max.consume S).eval S) := by
    intro S h
    have hs : (Max.consume S).eval = DBL_MIN := by
      show (List.foldl Max.update Max.ctor S).m_max = DBL_MIN
      rw [max_fold_stuck S Max.ctor h]; rfl
    refine ⟨hs, fun hnot hmax => hnot ?_⟩
    rw [← hs]; exact hmax.1
  refine ⟨gen, fun S hneg => ?_⟩
  have hle : ∀ x ∈ S, fgt x DBL_MIN = false := by
    intro x hx
    have h1 := (flt_iff _ _).1 (hneg x hx)
    cases hg : fgt x DBL_MIN
    · rfl
    · have h2 := (flt_iff _ _).1 hg
      omega
  refine ⟨(gen S hle).1, (gen S hle).2 (fun hmem => ?_)⟩
  have h1 := (flt_iff _ _).1 (hneg _ hmem)
  omega

/-- Witness of C6 amended: consuming `[-5, -2, -9]` leaves `Max.eval()` equal
to `DBL_MIN`, which is not the maximum, while `Min.eval()` is `-9`. -/
theorem max_keeps_sentinel_witness :
    ((Max.consume [ofInt (-5), ofInt (-2), ofInt (-9)]).eval = DBL_MIN ∧
      ¬ isMaxOf (Max.consume [ofInt (-5), ofInt (-2), ofInt (-9)]).eval
          [ofInt (-5), ofInt (-2), ofInt (-9)]) ∧
    (Min.consume [ofInt (-5), ofInt (-2), ofInt (-9)]).eval = ofInt (-9) :=
  ⟨max_keeps_sentinel.2 [ofInt (-5), ofInt (-2), ofInt (-9)] (by decide), by decide⟩

/-- C7: for every sequence `S` and every permutation `P` of `S`, `Min.eval()`
after consuming `S` equals (`==`) `Min.eval()` after consuming `P`, and likewise
for `Max.eval()`; the two results are moreover the same double unless they are
zeros (`+0 == -0`). -/
theorem min_max_order_invariant (S P : List Dbl) (h : S.Perm P) :
    (feq (Min.consume S).eval (Min.consume P).eval = true ∧
      ((Min.consume S).eval.key ≠ 0 → (Min.consume S).eval = (Min.consume P).eval)) ∧
    (feq (Max.consume S).eval (Max.consume P).eval = true ∧
      ((Max.consume S).eval.key ≠ 0 → (Max.consume S).eval = (Max.consume P).eval)) := by
  have hmin : (Min.consume S).eval.key = (Min.consume P).eval.key := by
    show (List.foldl Min.update Min.ctor S).m_min.key = (List.foldl Min.update Min.ctor P).m_min.key
    rw [min_key_fold S Min.ctor rfl, min_key_fold P Min.ctor rfl]
    exact h.foldl_eq' (fun x _ y _ z => minKey_comm z x y) _
  have hmax : (Max.consume S).eval.key = (Max.consume P).eval.key := by
    show (List.foldl Max.update Max.ctor S).m_max.key = (List.foldl Max.update Max.ctor P).m_max.key
    rw [max_key_fold S Max.ctor rfl, max_key_fold P Max.ctor rfl]
    exact h.foldl_eq' (fun x _ y _ z => maxKey_comm z x y) _
  exact ⟨⟨(feq_iff _ _).2 ⟨min_consume_not_nan S, min_consume_not_nan P, hmin⟩,
      key_inj (min_consume_not_nan S) (min_consume_not_nan P) hmin⟩,
    ⟨(feq_iff _ _).2 ⟨max_consume_not_nan S, max_consume_not_nan P, hmax⟩,
      key_inj (max_consume_not_nan S) (max_consume_not_nan P) hmax⟩⟩

/-- Witness of C7 at `[3, 1, 4]` and its permutation `[4, 3, 1]`. -/
theorem min_max_order_invariant_witness :
    (feq (Min.consume [ofInt 3, ofInt 1, ofInt 4]).eval
        (Min.consume [ofInt 4, ofInt 3, ofInt 1]).eval = true ∧
      ((Min.consume [ofInt 3, ofInt 1, ofInt 4]).eval.key ≠ 0 →
        (Min.consume [ofInt 3, ofInt 1, ofInt 4]).eval =
          (Min.consume [ofInt 4, ofInt 3, ofInt 1]).eval)) ∧
    (feq (Max.consume [ofInt 3, ofInt 1, ofInt 4]).eval
        (Max.consume [ofInt 4, ofInt 3, ofInt 1]).eval = true ∧
      ((Max.consume [ofInt 3, ofInt 1, ofInt 4]).eval.key ≠ 0 →
        (Max.consume [ofInt 3, ofInt 1, ofInt 4]).eval =
          (Max.consume [ofInt 4, ofInt 3, ofInt 1]).eval)) :=
  min_max_order_invariant [ofInt 3, ofInt 1, ofInt 4] [ofInt 4, ofInt 3, ofInt 1] (by decide)

set_option maxRecDepth 8000 in
/-- C8, as stated, fails: `[1, 1, 2^53]` is a permutation of `[2^53, 1, 1]`, but
`2^53 + 1` rounds to `2^53`, so the two running sums end at `2^53` and
`2^53 + 2`, and both `Mean.eval()` and `Std.eval()` differ between the two
orders. -/
theorem mean_std_order_counterexample :
    [ofInt (2 ^ 53), ofInt 1, ofInt 1].Perm [ofInt 1, ofInt 1, ofInt (2 ^ 53)] ∧
    feq (Mean.consume [ofInt (2 ^ 53), ofInt 1, ofInt 1]).eval
      (Mean.consume [ofInt 1, ofInt 1, ofInt (2 ^ 53)]).eval = false ∧
    feq (Std.consume [ofInt (2 ^ 53), ofInt 1, ofInt 1]).eval
      (Std.consume [ofInt 1, ofInt 1, ofInt (2 ^ 53)]).eval = false := by
  decide

/-- C8, amended: for every sequence `S` and every permutation `P` of `S` such
that no addition rounds while the observations are summed, in the order of `S`
and in the order of `P`, `Mean.eval()` after consuming `S` equals `Mean.eval()`
after consuming `P`; if moreover no addition rounds while the squared
deviations are summed, in either order, `Std.eval()` after consuming `S` equals
`Std.eval()` after consuming `P`. -/
theorem mean_std_order_invariant_exact (S P : List Dbl) (h : S.Perm P)
    (hS : sumExact (zero false) S = true) (hP : sumExact (zero false) P = true) :
    (Mean.consume S).eval = (Mean.consume P).eval ∧
    (sumExact (zero false) (S.map (sqDev (specMean S))) = true →
      sumExact (zero false) (P.map (sqDev (specMean P))) = true →
      (Std.consume S).eval = (Std.consume P).eval) := by
  have hsum := specSum_perm h hS hP
  have hmean : specMean S = specMean P := by
    unfold specMean; rw [hsum, h.length_eq]
  constructor
  · unfold Mean.eval
    rw [mean_consume_sum, mean_consume_cnt, mean_consume_sum, mean_consume_cnt, hsum,
      h.length_eq]
  · intro hS2 hP2
    rw [std_eval_eq_specStd, std_eval_eq_specStd, std_consume_vector, std_consume_vector]
    unfold specStd
    rw [hmean] at hS2 ⊢
    rw [specSum_perm (h.map _) hS2 hP2, h.length_eq]

/-- Witness of C8 amended at `[1, 2, 3]` and its permutation `[3, 1, 2]`. -/
theorem mean_std_order_invariant_exact_witness :
    (Mean.consume [ofInt 1, ofInt 2, ofInt 3]).eval
      = (Mean.consume [ofInt 3, ofInt 1, ofInt 2]).eval ∧
    (Std.consume [ofInt 1, ofInt 2, ofInt 3]).eval
      = (Std.consume [ofInt 3, ofInt 1, ofInt 2]).eval :=
  ⟨(mean_std_order_invariant_exact [ofInt 1, ofInt 2, ofInt 3] [ofInt 3, ofInt 1, ofInt 2]
      (by decide) (by decide) (by decide)).1,
    (mean_std_order_invariant_exact [ofInt 1, ofInt 2, ofInt 3] [ofInt 3, ofInt 1, ofInt 2]
      (by decide) (by decide) (by decide)).2 (by decide) (by decide)⟩

/-- C9: for each of `Min`, `Max`, `Mean` and `Std`, in the state reached by a
fresh object consuming any sequence `S`, any number `n` of consecutive `eval()`
calls leaves the object in that same state and returns `n` times the same
value, the one `eval()` yields in that state. -/
theorem eval_is_pure (S : List Dbl) (n : Nat) :
    ((IStatistics.min Min.ctor).consume S).run (List.replicate n Call.eval)
      = (IStatistics.min (Min.consume S), List.replicate n (Min.consume S).eval) ∧
    ((IStatistics.max Max.ctor).consume S).run (List.replicate n Call.eval)
      = (IStatistics.max (Max.consume S), List.replicate n (Max.consume S).eval) ∧
    ((IStatistics.mean Mean.ctor).consume S).run (List.replicate n Call.eval)
      = (IStatistics.mean (Mean.consume S), List.replicate n (Mean.consume S).eval) ∧
    ((IStatistics.std Std.ctor).consume S).run (List.replicate n Call.eval)
      = (IStatistics.std (Std.consume S), List.replicate n (Std.consume S).eval) := by
  rw [consume_min, consume_max, consume_mean, consume_std]
  exact ⟨run_eval_replicate _ n, run_eval_replicate _ n, run_eval_replicate _ n,
    run_eval_replicate _ n⟩

/-- C10: with zero observations consumed `Min.eval()` returns `DBL_MAX`, which
is finite and `>=` every finite double, and `Max.eval()` returns `DBL_MIN`,
which is a positive normalised double and `<=` every positive normalised
double; both calls return a value. -/
theorem fresh_min_max_sentinels :
    (Min.consume []).eval = DBL_MAX ∧ (Max.consume []).eval = DBL_MIN ∧
    DBL_MAX.isFinite = true ∧ (∀ d : Dbl, d.isFinite = true → fle d DBL_MAX = true) ∧
    flt (zero false) DBL_MIN = true ∧
    (∀ (e : Fin 2046) (f : Fin (2 ^ 52)), fle DBL_MIN (norm false e f) = true) := by
  refine ⟨rfl, rfl, rfl, ?_, by decide, ?_⟩
  · intro d hd
    have hn : d.isNaN = false := by cases d <;> simp [isFinite, isNaN] at hd ⊢
    refine (fle_iff _ _).2 ⟨hn, rfl, ?_⟩
    rw [key_of_finite hd, DBL_MAX_key]
    have h := mag_le_max d
    have h' : (d.mag : Int) ≤ (((2 ^ 53 - 1) * 2 ^ 2045 : Nat) : Int) := by exact_mod_cast h
    unfold toInt
    split <;> omega
  · intro e f
    refine (fle_iff _ _).2 ⟨rfl, rfl, ?_⟩
    have h := mag_norm_ge false e f
    have h1 : DBL_MIN.key = ((2 ^ 52 : Nat) : Int) := by decide
    have h2 : (norm false e f).key = (((norm false e f).mag : Nat) : Int) := rfl
    rw [h1, h2]
    exact_mod_cast h

/-- Witness of C10: `1.0` is finite, hence `<= DBL_MAX`. -/
theorem fresh_min_max_sentinels_witness : fle (ofInt 1) DBL_MAX = true :=
  fresh_min_max_sentinels.2.2.2.1 (ofInt 1) (by decide)

/-- C11: with zero observations consumed, `Mean.eval()` divides the sum `0` by
the count `0` and `Std.eval()` divides the empty sum `0.0` by the size `0`,
twice; `0 / 0` is NaN and both calls return NaN, not a finite number. -/
theorem empty_mean_std_nan :
    (Mean.consume []).m_sum = zero false ∧ ofInt (Mean.consume []).m_cnt = zero false ∧
    specSum [] = zero false ∧ ofNat ([] : List Dbl).length = zero false ∧
    fdiv (zero false) (zero false) = nan ∧ fsqrt nan = nan ∧
    (Mean.consume []).eval = nan ∧ (Std.consume []).eval = nan ∧
    (Mean.consume []).eval.isFinite = false ∧ (Std.consume []).eval.isFinite = false := by
  decide

/-- C12: `name()` returns, in every state of the object and so after any
number of observations, `"min value"` for `Min`, `"max value"` for `Max`,
`"average value"` for `Mean` and `"standard deviation"` for `Std`; the four
strings are non-empty and pairwise distinct. -/
theorem names_fixed_and_distinct :
    (∀ s : Min, s.name = "min value") ∧ (∀ s : Max, s.name = "max value") ∧
    (∀ s : Mean, s.name = "average value") ∧ (∀ s : Std, s.name = "standard deviation") ∧
    (∀ S : List Dbl, (Min.consume S).name = "min value" ∧ (Max.consume S).name = "max value" ∧
      (Mean.consume S).name = "average value" ∧ (Std.consume S).name = "standard deviation") ∧
    (∀ n ∈ ["min value", "max value", "average value", "standard deviation"], n ≠ "") ∧
    ["min value", "max value", "average value", "standard deviation"].Nodup := by
  refine ⟨fun _ => rfl, fun _ => rfl, fun _ => rfl, fun _ => rfl,
    fun _ => ⟨rfl, rfl, rfl, rfl⟩, by decide, by decide⟩

set_option maxRecDepth 8000 in
/-- C13: after fresh `Min`, `Max`, `Mean` and `Std` each consume
`[3, 1, 4, 1, 5]` in that order, `Min.eval()` is `1`, `Max.eval()` is `5`,
`Mean.eval()` is the double `2.8` and `Std.eval()` is `sqrt(12.8 / 5)`, which
is the double `1.6`. -/
theorem scenario_one :
    (Min.consume [ofInt 3, ofInt 1, ofInt 4, ofInt 1, ofInt 5]).eval = ofInt 1 ∧
    (Max.consume [ofInt 3, ofInt 1, ofInt 4, ofInt 1, ofInt 5]).eval = ofInt 5 ∧
    (Mean.consume [ofInt 3, ofInt 1, ofInt 4, ofInt 1, ofInt 5]).eval = ofRat false 28 10 ∧
    (Std.consume [ofInt 3, ofInt 1, ofInt 4, ofInt 1, ofInt 5]).eval
      = fsqrt (fdiv (ofRat false 128 10) (ofInt 5)) ∧
    (Std.consume [ofInt 3, ofInt 1, ofInt 4, ofInt 1, ofInt 5]).eval = ofRat false 16 10 := by
  decide

/-- C14, as stated, fails: after the single observation `+infinity` the
deviation `inf - inf` is NaN and `Std.eval()` is NaN, not `0`. -/
theorem single_observation_counterexample :
    (Mean.consume [inf false]).eval = inf false ∧ (Std.consume [inf false]).eval = nan ∧
      feq (Std.consume [inf false]).eval (zero false) = false := by
  decide

/-- C14, amended: for every sequence consisting of a single finite observation
`x`, `Mean.eval()` equals `x` (`==`; it is the double `x` itself unless `x` is
`-0`), `Std.eval()` is `+0` and `Min.eval()` is `x`; `Max.eval()` is `x` when
`x >= DBL_MIN`, as for `x = 7`. -/
theorem single_observation (x : Dbl) (hx : x.isFinite = true) :
    feq (Mean.consume [x]).eval x = true ∧
    (x ≠ zero true → (Mean.consume [x]).eval = x) ∧
    (Std.consume [x]).eval = zero false ∧
    (Min.consume [x]).eval = x ∧
    (fle DBL_MIN x = true → (Max.consume [x]).eval = x) := by
  have hm := specMean_single hx
  refine ⟨?_, ?_, std_eval_single hx, min_first_update x (finite_le_max hx),
    fun h => max_first_update x h⟩
  · rw [mean_eval_single, hm]
    by_cases h0 : x.mag = 0
    · rw [if_pos h0]
      refine (feq_iff _ _).2 ⟨rfl, finite_isNaN hx, ?_⟩
      rw [key_of_finite hx]
      unfold toInt
      rw [h0]
      split <;> rfl
    · rw [if_neg h0]
      exact (feq_iff _ _).2 ⟨finite_isNaN hx, finite_isNaN hx, rfl⟩
  · intro hne
    rw [mean_eval_single, hm]
    by_cases h0 : x.mag = 0
    · rw [if_pos h0]
      have hz := finite_mag_zero hx h0
      cases hs : x.isNeg
      · rw [hz, hs]
      · rw [hs] at hz; exact absurd hz hne
    · rw [if_neg h0]

/-- Witness of C14 amended at the single observation `7`:
`Min = Max = Mean = 7` and `Std = 0`. -/
theorem single_observation_witness :
    feq (Mean.consume [ofInt 7]).eval (ofInt 7) = true ∧
    (Mean.consume [ofInt 7]).eval = ofInt 7 ∧
    (Std.consume [ofInt 7]).eval = zero false ∧
    (Min.consume [ofInt 7]).eval = ofInt 7 ∧
    (Max.consume [ofInt 7]).eval = ofInt 7 :=
  ⟨(single_observation (ofInt 7) (by decide)).1,
    (single_observation (ofInt 7) (by decide)).2.1 (by decide),
    (single_observation (ofInt 7) (by decide)).2.2.1,
    (single_observation (ofInt 7) (by decide)).2.2.2.1,
    (single_observation (ofInt 7) (by decide)).2.2.2.2 (by decide)⟩

/-- C15, as stated, fails: a first observation `+infinity` does not replace
the initial value of a fresh `Min`; `Min.eval()` is then `DBL_MAX`, not the
observation. -/
theorem min_first_observation_counterexample :
    (Min.ctor.update (inf false)).eval = DBL_MAX ∧
      feq (Min.ctor.update (inf false)).eval (inf false) = false := by
  decide

/-- C15, amended: for every first observation `x <= DBL_MAX` (so neither NaN
nor `+infinity`) consumed by a fresh `Min`, `Min.eval()` equals `x` after that
single update; and `update(v)` on a `Min` with running minimum `m` yields
running minimum `v` if `v < m` and leaves `m` unchanged otherwise. -/
theorem min_update_rule :
    (∀ x : Dbl, fle x DBL_MAX = true → (Min.ctor.update x).eval = x) ∧
    (∀ (s : Min) (v : Dbl), (flt v s.m_min = true → (s.update v).eval = v) ∧
      (flt v s.m_min = false → s.update v = s)) := by
  constructor
  · intro x hx
    exact min_first_update x hx
  · intro s v
    constructor
    · intro h
      show (s.update v).m_min = v
      rw [min_update_m_min, if_pos h]
    · intro h
      unfold Min.update
      rw [if_neg (by simp [h])]

/-- Witness of C15 amended: the first observation `7`, then `update(3)` and
`update(9)` on the running minimum `7`. -/
theorem min_update_rule_witness :
    (Min.ctor.update (ofInt 7)).eval = ofInt 7 ∧
    ((Min.ctor.update (ofInt 7)).update (ofInt 3)).eval = ofInt 3 ∧
    (Min.ctor.update (ofInt 7)).update (ofInt 9) = Min.ctor.update (ofInt 7) :=
  ⟨min_update_rule.1 (ofInt 7) (by decide),
    (min_update_rule.2 (Min.ctor.update (ofInt 7)) (ofInt 3)).1 (by decide),
    (min_update_rule.2 (Min.ctor.update (ofInt 7)) (ofInt 9)).2 (by decide)⟩

/-- C16: for every sequence `S`, empty or not, `Max.eval()` after consuming
`S` is the larger of `DBL_MIN`, the initial value, and `max(S)`: it is the
maximum element of `DBL_MIN :: S`.  It is the maximum element of `S` exactly
when some observation is `>= DBL_MIN`, and it is always strictly positive.
(NaN observations compare false with everything and are left out of the
maximum; for a sequence without NaN the maximum is over all of `S`.) -/
theorem max_eval_is_larger_of_sentinel_and_max (S : List Dbl) :
    isMaxOf (Max.consume S).eval (DBL_MIN :: S.filter (fun y => !y.isNaN)) ∧
    (isMaxOf (Max.consume S).eval (S.filter (fun y => !y.isNaN)) ↔
      ∃ x ∈ S, fge x DBL_MIN = true) ∧
    flt (zero false) (Max.consume S).eval = true ∧
    ((∀ x ∈ S, x.isNaN = false) →
      isMaxOf (Max.consume S).eval (DBL_MIN :: S) ∧
      (isMaxOf (Max.consume S).eval S ↔ ∃ x ∈ S, fge x DBL_MIN = true)) := by
  refine ⟨max_eval_isMaxOf_cons S, max_eval_isMaxOf_iff S, max_eval_pos S, fun h => ?_⟩
  have h1 := max_eval_isMaxOf_cons S
  have h2 := max_eval_isMaxOf_iff S
  rw [filter_notNaN_eq h] at h1 h2
  exact ⟨h1, h2⟩

/-- Witness of C16 at `[-5, -2, -9]` (no observation reaches `DBL_MIN`) and at
`[3, 1, 4]`. -/
theorem max_eval_is_larger_of_sentinel_and_max_witness :
    (isMaxOf (Max.consume [ofInt (-5), ofInt (-2), ofInt (-9)]).eval
        (DBL_MIN :: [ofInt (-5), ofInt (-2), ofInt (-9)]) ∧
      (isMaxOf (Max.consume [ofInt (-5), ofInt (-2), ofInt (-9)]).eval
          [ofInt (-5), ofInt (-2), ofInt (-9)] ↔
        ∃ x ∈ [ofInt (-5), ofInt (-2), ofInt (-9)], fge x DBL_MIN = true)) ∧
    (isMaxOf (Max.consume [ofInt 3, ofInt 1, ofInt 4]).eval
        (DBL_MIN :: [ofInt 3, ofInt 1, ofInt 4]) ∧
      (isMaxOf (Max.consume [ofInt 3, ofInt 1, ofInt 4]).eval [ofInt 3, ofInt 1, ofInt 4] ↔
        ∃ x ∈ [ofInt 3, ofInt 1, ofInt 4], fge x DBL_MIN = true)) :=
  ⟨(max_eval_is_larger_of_sentinel_and_max [ofInt (-5), ofInt (-2), ofInt (-9)]).2.2.2
      (by decide),
    (max_eval_is_larger_of_sentinel_and_max [ofInt 3, ofInt 1, ofInt 4]).2.2.2 (by decide)⟩

/-- C17, as stated, fails: the three observations `0.1, 0.1, 0.1` do not exceed
`DBL_MAX`, their running sum rounds up to `0.30000000000000004`, and
`Mean.eval()` is `0.10000000000000002`, strictly greater than `Max.eval()`,
which is `0.1`.  And after the `2^31` observations `1, 0, 0, ...` the counter
of `Mean` has wrapped: `Mean.eval()` is `-2^-31`, below `Min.eval()`, which
is `0`. -/
theorem min_mean_max_counterexample :
    ([ofRat false 1 10, ofRat false 1 10, ofRat false 1 10] ≠ [] ∧
      (∀ x ∈ [ofRat false 1 10, ofRat false 1 10, ofRat false 1 10], fgt x DBL_MAX = false) ∧
      (Max.consume [ofRat false 1 10, ofRat false 1 10, ofRat false 1 10]).eval
        = ofRat false 1 10 ∧
      fle (Mean.consume [ofRat false 1 10, ofRat false 1 10, ofRat false 1 10]).eval
        (Max.consume [ofRat false 1 10, ofRat false 1 10, ofRat false 1 10]).eval = false) ∧
    (ofInt 1 :: List.replicate (2 ^ 31 - 1) (zero false) ≠ [] ∧
      (∀ x ∈ ofInt 1 :: List.replicate (2 ^ 31 - 1) (zero false), fgt x DBL_MAX = false) ∧
      fle (Min.consume (ofInt 1 :: List.replicate (2 ^ 31 - 1) (zero false))).eval
        (Mean.consume (ofInt 1 :: List.replicate (2 ^ 31 - 1) (zero false))).eval = false) := by
  refine ⟨by decide, List.cons_ne_nil _ _, ?_, ?_⟩
  · intro x hx
    rcases List.mem_cons.1 hx with rfl | hx
    · decide
    · rw [List.eq_of_mem_replicate hx]; decide
  · have h31 : 2 ^ 31 - 1 = (2 ^ 31 - 2) + 1 := by decide
    rw [mean_eval_one_zeros, h31, min_eval_one_zeros]
    decide

/-- C17, amended: for every non-empty sequence `S` of at most `2^31 - 1`
observations whose running sum is computed without rounding (so every
observation is finite and none exceeds `DBL_MAX`),
`Min.eval() <= Mean.eval() <= Max.eval()` after the three accumulators consume
`S`; this holds despite the positive initial value of `Max`. -/
theorem min_le_mean_le_max (S : List Dbl) (hne : S ≠ []) (hlen : S.length < 2 ^ 31)
    (hex : sumExact (zero false) S = true) :
    fle (Min.consume S).eval (Mean.consume S).eval = true ∧
      fle (Mean.consume S).eval (Max.consume S).eval = true := by
  have hpos : 1 ≤ S.length := by
    cases S with
    | nil => exact absurd rfl hne
    | cons x xs => simp
  have hfin := sumExact_finite S _ hex
  obtain ⟨s1, _, s3⟩ := sumExact_fold S (zero false) rfl (by decide) hex
  have hz : (zero false).toInt = 0 := by decide
  rw [hz, Int.zero_add] at s3
  obtain ⟨a1, _, a3, a4⟩ := min_fold S Min.ctor rfl
  obtain ⟨b1, _, b3, b4⟩ := max_fold S Max.ctor rfl
  have hminf : (Min.consume S).eval.isFinite = true := by
    rcases a4 with h | h
    · show (List.foldl Min.update Min.ctor S).m_min.isFinite = true
      rw [h]; rfl
    · exact hfin _ h
  have hmaxf : (Max.consume S).eval.isFinite = true := by
    rcases b4 with h | h
    · show (List.foldl Max.update Max.ctor S).m_max.isFinite = true
      rw [h]; rfl
    · exact hfin _ h
  have hbounds := list_sum_bounds (S.map Dbl.toInt) (Min.consume S).eval.toInt
    (Max.consume S).eval.toInt (by
      intro y hy
      obtain ⟨x, hx, rfl⟩ := List.mem_map.1 hy
      have hxf := hfin x hx
      have h1 := a3 x hx (finite_isNaN hxf)
      have h2 := b3 x hx (finite_isNaN hxf)
      rw [key_of_finite hxf] at h1 h2
      constructor
      · rw [← key_of_finite hminf]; exact h1
      · rw [← key_of_finite hmaxf]; exact h2)
  rw [List.length_map] at hbounds
  have hmean : (Mean.consume S).eval = fdiv (specSum S) (ofNat S.length) := by
    unfold Mean.eval
    rw [mean_consume_sum, mean_consume_cnt,
      wrapInt32_of_range _ (Int.ofNat_nonneg _) (by exact_mod_cast hlen), ofInt_natCast]
  rw [hmean]
  have h53 : S.length < 2 ^ 53 := by
    have : (2 : Nat) ^ 31 ≤ 2 ^ 53 := Nat.pow_le_pow_right (by norm_num) (by norm_num)
    omega
  have s3' : (specSum S).toInt = (S.map Dbl.toInt).sum := s3
  exact fdiv_between S.length hpos h53 s1 hminf hmaxf (by rw [s3']; exact hbounds.1)
    (by rw [s3']; exact hbounds.2)

/-- Witness of C17 amended at `[3, 1, 4, 1, 5]`. -/
theorem min_le_mean_le_max_witness :
    fle (Min.consume [ofInt 3, ofInt 1, ofInt 4, ofInt 1, ofInt 5]).eval
        (Mean.consume [ofInt 3, ofInt 1, ofInt 4, ofInt 1, ofInt 5]).eval = true ∧
      fle (Mean.consume [ofInt 3, ofInt 1, ofInt 4, ofInt 1, ofInt 5]).eval
        (Max.consume [ofInt 3, ofInt 1, ofInt 4, ofInt 1, ofInt 5]).eval = true :=
  min_le_mean_le_max [ofInt 3, ofInt 1, ofInt 4, ofInt 1, ofInt 5] (by decide) (by decide)
    (by decide)

set_option maxRecDepth 8000 in
/-- C18, as stated, fails in both directions: the observations
`0.1, 0.1, 0.1` are all equal, but their computed mean is
`0.10000000000000002` and `Std.eval()` is not `0`; the observations `0` and
`2^-600` differ, but the squared deviations underflow to `0` and `Std.eval()`
is `0`. -/
theorem std_zero_counterexample :
    ((∀ y ∈ [ofRat false 1 10, ofRat false 1 10, ofRat false 1 10],
        ∀ z ∈ [ofRat false 1 10, ofRat false 1 10, ofRat false 1 10], y = z) ∧
      feq (Std.consume [ofRat false 1 10, ofRat false 1 10, ofRat false 1 10]).eval
        (zero false) = false) ∧
    (feq (zero false) (ofRat false 1 (2 ^ 600)) = false ∧
      (Std.consume [zero false, ofRat false 1 (2 ^ 600)]).eval = zero false) := by
  decide

/-- C18, amended: for every non-empty sequence `S` of observations all equal
to one finite value `x`, if the computed mean of `S` equals `x` then
`Std.eval()` after consuming `S` is `0`; and for every non-empty sequence `S`
of finite observations on which nothing underflows (no squared deviation and
not their mean), if `Std.eval()` after consuming `S` equals `0` then all
observations in `S` are equal to one another.  Sequences are shorter than
`2^64`, the range of `size_t`. -/
theorem std_zero_iff_all_equal :
    (∀ (S : List Dbl) (x : Dbl), S ≠ [] → S.length < 2 ^ 64 → x.isFinite = true →
      (∀ y ∈ S, feq y x = true) → feq (specMean S) x = true →
      (Std.consume S).eval = zero false) ∧
    (∀ S : List Dbl, S ≠ [] → S.length < 2 ^ 64 → (∀ y ∈ S, y.isFinite = true) →
      stdNoUnderflow S → feq (Std.consume S).eval (zero false) = true →
      ∀ y ∈ S, ∀ z ∈ S, feq y z = true) := by
  constructor
  · intro S x hne hlen hx hall hmean
    rw [std_eval_eq_specStd, std_consume_vector]
    obtain ⟨hmf, hmk⟩ := finite_of_feq hx hmean
    refine specStd_zero_of_eq_mean S hne hlen hmf (fun y hy => ?_)
    obtain ⟨hyf, hyk⟩ := finite_of_feq hx (hall y hy)
    exact ⟨hyf, by rw [hyk, hmk]⟩
  · intro S hne hlen hfin hno hz y hy z hz'
    rw [std_eval_eq_specStd, std_consume_vector] at hz
    have hk := eq_mean_of_specStd_zero S hne hlen hfin hno (isZero_of_feq_zero hz)
    refine (feq_iff _ _).2 ⟨finite_isNaN (hfin y hy), finite_isNaN (hfin z hz'), ?_⟩
    rw [hk y hy, hk z hz']

set_option maxRecDepth 8000 in
/-- Witness of C18 amended: `[3, 3, 3]` has mean `3` and `Std.eval()` is `0`;
on `[3, 3]` nothing underflows, `Std.eval()` is `0` and `3 == 3`. -/
theorem std_zero_iff_all_equal_witness :
    (Std.consume [ofInt 3, ofInt 3, ofInt 3]).eval = zero false ∧
    (∀ y ∈ [ofInt 3, ofInt 3], ∀ z ∈ [ofInt 3, ofInt 3], feq y z = true) :=
  ⟨std_zero_iff_all_equal.1 [ofInt 3, ofInt 3, ofInt 3] (ofInt 3) (by decide) (by decide)
      (by decide) (by decide) (by decide),
    std_zero_iff_all_equal.2 [ofInt 3, ofInt 3] (by decide) (by decide) (by decide) (by decide)
      (by decide)⟩

/-- C19: the counter of `Mean` is a 32-bit signed `int`.  For every sequence of
`n <= 2^31 - 1` observations the count after consuming equals `n`, no
increment having wrapped, and `Mean.eval()` divides the sum by `n`; after
exactly `2^31` observations the count is `-2^31`, and for every sequence of
`2^31` or more observations the count differs from the number of observations
consumed. -/
theorem mean_counter_int32 :
    (∀ S : List Dbl, S.length ≤ 2 ^ 31 - 1 →
      (Mean.consume S).m_cnt = S.length ∧
      (Mean.consume S).eval = fdiv (Mean.consume S).m_sum (ofNat S.length)) ∧
    (∀ S : List Dbl, S.length = 2 ^ 31 → (Mean.consume S).m_cnt = -(2 ^ 31)) ∧
    (∀ S : List Dbl, 2 ^ 31 ≤ S.length → (Mean.consume S).m_cnt ≠ S.length) := by
  refine ⟨fun S h => ?_, fun S h => ?_, fun S h => ?_⟩
  · have hc : (Mean.consume S).m_cnt = S.length := by
      rw [mean_consume_cnt]
      exact wrapInt32_of_range _ (Int.ofNat_nonneg _) (by omega)
    refine ⟨hc, ?_⟩
    unfold Mean.eval
    rw [hc, ofInt_natCast]
  · rw [mean_consume_cnt, h]
    decide
  · rw [mean_consume_cnt]
    have hr := (wrapInt32_range (S.length : Int)).2
    intro hc
    rw [hc] at hr
    omega

/-- Witness of C19: the count after `[3, 1, 4]` is `3`, the count after `2^31`
observations `0.0` is `-2^31` and differs from `2^31`. -/
theorem mean_counter_int32_witness :
    ((Mean.consume [ofInt 3, ofInt 1, ofInt 4]).m_cnt = 3 ∧
      (Mean.consume [ofInt 3, ofInt 1, ofInt 4]).eval
        = fdiv (Mean.consume [ofInt 3, ofInt 1, ofInt 4]).m_sum (ofNat 3)) ∧
    (Mean.consume (List.replicate (2 ^ 31) (zero false))).m_cnt = -(2 ^ 31) ∧
    (Mean.consume (List.replicate (2 ^ 31) (zero false))).m_cnt
      ≠ ((List.replicate (2 ^ 31) (zero false)).length : Int) :=
  ⟨mean_counter_int32.1 [ofInt 3, ofInt 1, ofInt 4] (by decide),
    mean_counter_int32.2.1 (List.replicate (2 ^ 31) (zero false)) (List.length_replicate _ _),
    mean_counter_int32.2.2 (List.replicate (2 ^ 31) (zero false))
      (le_of_eq (List.length_replicate _ _).symm)⟩

end Statistics
